import Mathlib

/-!
Verification of the Markdown Code Block Highlighter core against its
specification.  The development shallowly embeds the pattern tokenizer
(`tokenizeCode` from the preview script and `createMinimalHighlighting`
from the tokenization service), the token colorizer, the LRU result
cache (`CacheManager`), the theme-kind detector, and the streaming /
timeout orchestration of `TokenizationService.tokenize`.

Strings of the JavaScript source are modelled as `List Char`; the
regular expressions of the tokenizer are modelled by anchored matchers
that reproduce the JavaScript engine's leftmost-match, alternation and
backtracking behaviour on the concrete patterns of the source
(documented at each definition).  `.` never matching `\n` is immaterial
per line; other Unicode line terminators are treated as ordinary
characters (the source is exercised on ASCII).
-/

namespace MCBH

/-- Span emitted by the preview script's `tokenizeCode`: a substring of
the source and its token type (the source uses plain strings for types). -/
structure Span where
  text : List Char
  ttype : String
deriving DecidableEq, Repr

/-- Token emitted by the tokenization service (`Token` interface of
`tokenizationService.ts`): text, scopes, absolute offsets and a color. -/
structure Token where
  text : List Char
  scopes : List String
  startIndex : Nat
  endIndex : Nat
  color : String
deriving DecidableEq, Repr

/-- Result of the tokenization service (`TokenizedCode` interface). -/
structure TokenizedCode where
  language : String
  tokens : List Token
deriving DecidableEq, Repr

/-- Theme data consumed by the tokenization service: the token-type
palette and the ambient colors (`ThemeData` of `themeManager.ts`; the
border/button fields are presentation-only and not consumed by the
functions modelled here). -/
structure ThemeData where
  kind : String
  colors : List (String × String)
  background : String
  foreground : String
deriving DecidableEq, Repr

/-- Candidate regex match inside one line: start offset, end offset and
token type, as collected by the per-line scanners of the source. -/
structure PatMatch where
  start : Nat
  stop : Nat
  ttype : String
deriving DecidableEq, Repr

/-! ## Line splitting (`code.split('\n')`) and its inverse -/

/-- JavaScript `code.split('\n')`: the empty string yields `[[]]`. -/
def splitOnNl : List Char → List (List Char)
  | [] => [[]]
  | c :: rest =>
    if c = '\n' then [] :: splitOnNl rest
    else
      match splitOnNl rest with
      | [] => [[c]]
      | l :: ls => (c :: l) :: ls

/-- Join lines with a single `'\n'` between consecutive lines. -/
def joinNl : List (List Char) → List Char
  | [] => []
  | [l] => l
  | l :: l' :: ls => l ++ '\n' :: joinNl (l' :: ls)

theorem splitOnNl_ne_nil (s : List Char) : splitOnNl s ≠ [] := by
  induction s with
  | nil => simp [splitOnNl]
  | cons c rest ih =>
    simp only [splitOnNl]
    split
    · simp
    · cases h : splitOnNl rest with
      | nil => simp
      | cons l ls => simp

theorem joinNl_splitOnNl (s : List Char) : joinNl (splitOnNl s) = s := by
  induction s with
  | nil => simp [splitOnNl, joinNl]
  | cons c rest ih =>
    simp only [splitOnNl]
    by_cases hc : c = '\n'
    · subst hc
      simp only [if_pos rfl]
      cases h : splitOnNl rest with
      | nil => exact absurd h (splitOnNl_ne_nil rest)
      | cons l ls =>
        cases ls with
        | nil =>
          simp only [joinNl, List.nil_append]
          rw [h] at ih
          simpa [joinNl] using congrArg (List.cons '\n') ih
        | cons l' ls' =>
          simp only [joinNl, List.nil_append]
          rw [h] at ih
          simpa [joinNl] using congrArg (List.cons '\n') ih
    · rw [if_neg hc]
      cases h : splitOnNl rest with
      | nil => exact absurd h (splitOnNl_ne_nil rest)
      | cons l ls =>
        cases ls with
        | nil =>
          simp only [joinNl]
          rw [h] at ih
          simpa [joinNl] using congrArg (List.cons c) ih
        | cons l' ls' =>
          simp only [joinNl, List.cons_append]
          rw [h] at ih
          simp only [joinNl] at ih
          simpa using congrArg (List.cons c) ih

/-! ## Character classes and case folding -/

/-- Word character of the regex `\b` boundary: `[A-Za-z0-9_]`. -/
def isWordChar (c : Char) : Bool :=
  ('a' ≤ c ∧ c ≤ 'z') ∨ ('A' ≤ c ∧ c ≤ 'Z') ∨ ('0' ≤ c ∧ c ≤ '9') ∨ c = '_'

/-- ASCII digit, the regex class `\d`. -/
def isDigitChar (c : Char) : Bool := '0' ≤ c ∧ c ≤ '9'

/-- ASCII lower-casing used to model the `i` regex flag (the keyword
alternatives of the source are all lower-case ASCII). -/
def asciiLower (c : Char) : Char :=
  if 'A' ≤ c ∧ c ≤ 'Z' then Char.ofNat (c.toNat + 32) else c

/-- Whether the character before offset `i` of `line` is a word
character (`false` at the start of the line), for `\b` assertions. -/
def prevWord (line : List Char) : Nat → Bool
  | 0 => false
  | j + 1 => isWordChar (line.getD j ' ')

/-- The backtick character, written via its code point. -/
def backquote : Char := Char.ofNat 96

/-! ## Anchored matchers for the four pattern families

Each matcher receives the suffix of the line starting at the candidate
offset (plus the word-ness of the preceding character where the pattern
begins with `\b`) and returns the length of the match the JavaScript
engine would produce at that offset, or `none`. -/

/-- Offset of the first occurrence of `*/` in the list, if any
(the non-greedy `[\s\S]*?\*\/` tail of the block-comment pattern). -/
def findCloseComment : List Char → Option Nat
  | [] => none
  | c :: rest =>
    if c = '*' ∧ rest.head? = some '/' then some 0
    else (findCloseComment rest).map (· + 1)

/-- Anchored match for `(\/\/.*$|\/\*[\s\S]*?\*\/|#.*$)`: alternatives
tried left to right; `//` and `#` run to the end of the line. -/
def tryComment : List Char → Option Nat
  | [] => none
  | c :: rest =>
    if c = '/' ∧ rest.head? = some '/' then some (rest.length + 1)
    else if c = '/' ∧ rest.head? = some '*' then (findCloseComment rest.tail).map (· + 4)
    else if c = '#' then some (rest.length + 1)
    else none

/-- Tail of the string pattern `(["'`])(?:(?=(\\?))\2.)*?\1` after the
opening quote `q`: non-greedy, so a closing `q` is tried first; a
backslash prefers to consume itself plus the next character, and
backtracks to consuming just itself when the longer choice cannot
reach a closing quote.  Returns the number of characters consumed
including the closing quote. -/
def strTail (q : Char) : List Char → Option Nat
  | [] => none
  | [c] => if c = q then some 1 else none
  | c :: d :: rest2 =>
    if c = q then some 1
    else if c = '\\' then
      match strTail q rest2 with
      | some n => some (n + 2)
      | none => (strTail q (d :: rest2)).map (· + 1)
    else (strTail q (d :: rest2)).map (· + 1)

/-- Anchored match for the string pattern: an opening `"`, `'` or
backtick followed by `strTail`. -/
def tryString : List Char → Option Nat
  | [] => none
  | c :: rest =>
    if c = '"' ∨ c = '\'' ∨ c = backquote then (strTail c rest).map (· + 1)
    else none

/-- Boundary `\b` when the last consumed character is a word character:
the next character must be absent or not a word character. -/
def boundaryAfterWord : List Char → Bool
  | [] => true
  | c :: _ => ¬ isWordChar c

/-- Boundary `\b` when the last consumed character is not a word
character (the dot of the number pattern): the next character must be a
word character. -/
def boundaryAfterNonWord : List Char → Bool
  | [] => false
  | c :: _ => isWordChar c

/-- Anchored match for `\b\d+\.?\d*\b` with the engine's greedy
backtracking: all digits, then an optional dot and trailing digits,
dropping trailing digits or the dot as needed to satisfy the final
`\b` (see the case analysis in the comments). -/
def tryNumber (pw : Bool) (s : List Char) : Option Nat :=
  match s with
  | [] => none
  | c :: _ =>
    if pw ∨ ¬ isDigitChar c then none
    else
      let d1 := (s.takeWhile isDigitChar).length
      match s.drop d1 with
      | '.' :: rest2 =>
        let d2 := (rest2.takeWhile isDigitChar).length
        if 0 < d2 then
          -- greedy: all trailing digits if a boundary follows them,
          -- otherwise backtrack to zero trailing digits (the dot is
          -- followed by a digit, so `.`/digit is always a boundary)
          if boundaryAfterWord (rest2.drop d2) then some (d1 + 1 + d2) else some (d1 + 1)
        else
          -- no trailing digits: keep the dot only when a word character
          -- follows it; otherwise drop the dot (digit/dot is a boundary)
          if boundaryAfterNonWord rest2 then some (d1 + 1) else some d1
      | rest1 => if boundaryAfterWord rest1 then some d1 else none

/-- Case-insensitive prefix test for a (lower-case ASCII) keyword. -/
def startsWithCI : List Char → List Char → Bool
  | [], _ => true
  | _ :: _, [] => false
  | k :: kr, c :: cr => asciiLower c = k ∧ startsWithCI kr cr

/-- Anchored match for `\b(kw1|kw2|…)\b` with flags `gi`: alternatives
in list order; an alternative succeeds only if the trailing `\b` also
holds, otherwise the engine backtracks to the next alternative. -/
def tryKeyword (kws : List (List Char)) (pw : Bool) (s : List Char) : Option Nat :=
  if pw then none
  else
    match kws with
    | [] => none
    | kw :: rest =>
      if startsWithCI kw s ∧ boundaryAfterWord (s.drop kw.length) then some kw.length
      else tryKeyword rest pw s

/-! ## The `exec` scan loop

A global regex is executed repeatedly; each search starts at the end of
the previous match (`lastIndex`) and finds the leftmost match from
there, which equals trying the anchored matcher at every offset in
turn.  The fuel is `line.length + 1`: every step either advances by at
least one character or ends the scan (all the matchers above return
positive lengths). -/

def scanAux (tA : Bool → List Char → Option Nat) (tt : String) (line : List Char) :
    Nat → Nat → List PatMatch
  | 0, _ => []
  | fuel + 1, i =>
    if i < line.length then
      match tA (prevWord line i) (line.drop i) with
      | some len => ⟨i, i + len, tt⟩ :: scanAux tA tt line fuel (i + len)
      | none => scanAux tA tt line fuel (i + 1)
    else []

def scanMatches (tA : Bool → List Char → Option Nat) (tt : String) (line : List Char) :
    List PatMatch :=
  scanAux tA tt line (line.length + 1) 0

/-- Keyword list of `tokenizeCode` in `previewScript.ts`, in source order. -/
def previewKeywords : List (List Char) :=
  ["function", "return", "if", "else", "for", "while", "do", "switch", "case",
   "break", "continue", "const", "let", "var", "class", "interface", "enum",
   "type", "import", "export", "from", "as", "default", "async", "await",
   "try", "catch", "finally", "throw", "new", "this", "super", "extends",
   "implements", "public", "private", "protected", "static", "readonly",
   "def", "lambda", "yield", "raise", "with", "pass", "assert", "global",
   "in", "is", "not", "and", "or", "true", "false", "null", "undefined"
  ].map String.toList

/-- Keyword list of `createMinimalHighlighting` in
`tokenizationService.ts`, in source order (it adds `nonlocal` and the
primitive-type words). -/
def minimalKeywords : List (List Char) :=
  ["function", "return", "if", "else", "for", "while", "do", "switch", "case",
   "break", "continue", "const", "let", "var", "class", "interface", "enum",
   "type", "import", "export", "from", "as", "default", "async", "await",
   "try", "catch", "finally", "throw", "new", "this", "super", "extends",
   "implements", "public", "private", "protected", "static", "readonly",
   "def", "lambda", "yield", "raise", "with", "pass", "assert", "global",
   "nonlocal", "in", "is", "not", "and", "or", "true", "false", "null",
   "undefined", "void", "any", "boolean", "number", "string", "object"
  ].map String.toList

/-- Candidate matches of one line in `tokenizeCode`: comments, strings,
numbers, then keywords (the discovery order of the source). -/
def previewLineMatches (line : List Char) : List PatMatch :=
  scanMatches (fun _ s => tryComment s) "comment" line ++
  scanMatches (fun _ s => tryString s) "string" line ++
  scanMatches tryNumber "number" line ++
  scanMatches (tryKeyword previewKeywords) "keyword" line

/-- Candidate matches of one line in `createMinimalHighlighting`:
comments, strings, keywords, then numbers (the discovery order there). -/
def minimalLineMatches (line : List Char) : List PatMatch :=
  scanMatches (fun _ s => tryComment s) "comment" line ++
  scanMatches (fun _ s => tryString s) "string" line ++
  scanMatches (tryKeyword minimalKeywords) "keyword" line ++
  scanMatches tryNumber "number" line

/-! ## Stable sort by start offset and overlap removal -/

/-- Insert behind every element with a strictly smaller start, in front
of the first element with an equal or larger start: with `sortByStart`
this reproduces the stable `matches.sort((a, b) => a.start - b.start)`. -/
def insertByStart (m : PatMatch) : List PatMatch → List PatMatch
  | [] => [m]
  | x :: xs => if x.start < m.start then x :: insertByStart m xs else m :: x :: xs

def sortByStart : List PatMatch → List PatMatch
  | [] => []
  | x :: xs => insertByStart x (sortByStart xs)

/-- Greedy overlap removal of the source: keep a match only when its
start is at least the end of the last kept match (`lastEnd` starts at
`-1`). -/
def overlapFilter : Int → List PatMatch → List PatMatch
  | _, [] => []
  | lastEnd, m :: ms =>
    if lastEnd ≤ (m.start : Int) then m :: overlapFilter (m.stop : Int) ms
    else overlapFilter lastEnd ms

/-- JavaScript `line.substring(a, b)` for `a ≤ b` within bounds. -/
def sublist (l : List Char) (a b : Nat) : List Char := (l.drop a).take (b - a)

/-! ## Token emission of `tokenizeCode` -/

/-- Per-line token emission of `tokenizeCode`: a gap `text` span before
each kept match when non-empty, the match span, and the remaining tail
of the line as a final `text` span. -/
def emitSpans (line : List Char) : Nat → List PatMatch → List Span
  | position, [] =>
    if position < line.length then [⟨line.drop position, "text"⟩] else []
  | position, m :: ms =>
    (if position < m.start then [⟨sublist line position m.start, "text"⟩] else []) ++
    ⟨sublist line m.start m.stop, m.ttype⟩ :: emitSpans line m.stop ms

/-- Spans of one line of `tokenizeCode`. -/
def lineSpans (line : List Char) : List Span :=
  emitSpans line 0 (overlapFilter (-1) (sortByStart (previewLineMatches line)))

/-- Lines joined back with a `text` span holding `"\n"` between
consecutive lines. -/
def previewLinesSpans : List (List Char) → List Span
  | [] => []
  | [l] => lineSpans l
  | l :: l' :: ls => lineSpans l ++ ⟨['\n'], "text"⟩ :: previewLinesSpans (l' :: ls)

/-- `tokenizeCode(code, language)` of `previewScript.ts`.  The language
argument does not influence the fixed pattern set (deliberate in the
source). -/
def tokenizeCode (code : List Char) (_language : String) : List Span :=
  previewLinesSpans (splitOnNl code)

def concatSpans (spans : List Span) : List Char := (spans.map Span.text).flatten

/-! ## Token colorizer (`getColorForTokenType` of the service) -/

/-- JavaScript `a || b` on an optional string: `undefined` and the empty
string (the only falsy string) fall through to the default. -/
def jsOrStr (o : Option String) (dflt : String) : String :=
  match o with
  | some s => if s = "" then dflt else s
  | none => dflt

/-- The `typeMapping` object literal of
`TokenizationService.getColorForTokenType`, entries in source order. -/
def typeMapping (t : String) : Option String :=
  if t = "comment" then some "comment"
  else if t = "string" then some "string"
  else if t = "keyword" then some "keyword"
  else if t = "number" then some "number"
  else if t = "function" then some "function"
  else if t = "method" then some "function"
  else if t = "class" then some "class"
  else if t = "type" then some "type"
  else if t = "interface" then some "type"
  else if t = "variable" then some "variable"
  else if t = "parameter" then some "parameter"
  else if t = "property" then some "property"
  else if t = "constant" then some "constant"
  else if t = "operator" then some "operator"
  else if t = "punctuation" then some "punctuation"
  else if t = "regexp" then some "regexp"
  else if t = "namespace" then some "type"
  else if t = "enum" then some "type"
  else if t = "struct" then some "type"
  else if t = "typeParameter" then some "type"
  else if t = "enumMember" then some "constant"
  else if t = "event" then some "function"
  else if t = "macro" then some "function"
  else if t = "modifier" then some "keyword"
  else none

/-- Lookup of `themeData.colors[key]`. -/
def colorsLookup (colors : List (String × String)) (k : String) : Option String :=
  (colors.find? (fun p => p.1 == k)).map (·.2)

/-- `mappedType = typeMapping[tokenType] || 'variable'`. -/
def mappedTypeFor (t : String) : String := jsOrStr (typeMapping t) "variable"

/-- `getColorForTokenType(tokenType, themeData)` of the service:
`themeData.colors[mappedType] || themeData.foreground`. -/
def getColorForTokenType (t : String) (th : ThemeData) : String :=
  jsOrStr (colorsLookup th.colors (mappedTypeFor t)) th.foreground

/-! ## `createMinimalHighlighting` (tier-3 fallback of the service) -/

/-- Filtered matches of one line of `createMinimalHighlighting`. -/
def minimalFiltered (line : List Char) : List PatMatch :=
  overlapFilter (-1) (sortByStart (minimalLineMatches line))

/-- Per-line token emission of `createMinimalHighlighting`: like
`emitSpans` but with absolute offsets (`position` is the offset of the
line start in the whole block) and resolved colors. -/
def minEmit (th : ThemeData) (line : List Char) (position : Nat) :
    Nat → List PatMatch → List Token
  | linePosition, [] =>
    if linePosition < line.length then
      [⟨line.drop linePosition, ["text"], position + linePosition, position + line.length,
        th.foreground⟩]
    else []
  | linePosition, m :: ms =>
    (if linePosition < m.start then
      [⟨sublist line linePosition m.start, ["text"], position + linePosition,
        position + m.start, th.foreground⟩]
     else []) ++
    ⟨sublist line m.start m.stop, [m.ttype], position + m.start, position + m.stop,
      getColorForTokenType m.ttype th⟩ ::
    minEmit th line position m.stop ms

/-- All lines of `createMinimalHighlighting`, with the `"\n"` token
between consecutive lines and the running absolute `position`. -/
def minimalLines (th : ThemeData) : List (List Char) → Nat → List Token
  | [], _ => []
  | [l], position => minEmit th l position 0 (minimalFiltered l)
  | l :: l' :: ls, position =>
    minEmit th l position 0 (minimalFiltered l) ++
    ⟨['\n'], ["text"], position + l.length, position + l.length + 1, th.foreground⟩ ::
    minimalLines th (l' :: ls) (position + l.length + 1)

/-- `createMinimalHighlighting(code, language, themeData)`: per-line
pattern pass; an empty token list (only possible for the empty input)
degrades to a single `text` token covering the whole code. -/
def createMinimalHighlighting (code : List Char) (language : String) (th : ThemeData) :
    TokenizedCode :=
  let tokens := minimalLines th (splitOnNl code) 0
  ⟨language,
   if tokens.isEmpty then [⟨code, ["text"], 0, code.length, th.foreground⟩] else tokens⟩

def concatTok (tokens : List Token) : List Char := (tokens.map Token.text).flatten

/-! ## Language normalization -/

def asciiLowerStr (s : String) : String := ⟨s.data.map asciiLower⟩

/-- The `aliases` object of `normalizeLanguage`, entries in source order. -/
def languageAliases (l : String) : Option String :=
  if l = "js" then some "javascript"
  else if l = "ts" then some "typescript"
  else if l = "py" then some "python"
  else if l = "rb" then some "ruby"
  else if l = "sh" then some "shellscript"
  else if l = "bash" then some "shellscript"
  else if l = "zsh" then some "shellscript"
  else if l = "yml" then some "yaml"
  else if l = "dockerfile" then some "docker"
  else if l = "md" then some "markdown"
  else if l = "cs" then some "csharp"
  else if l = "cpp" then some "cpp"
  else if l = "c++" then some "cpp"
  else if l = "kt" then some "kotlin"
  else if l = "rs" then some "rust"
  else if l = "go" then some "go"
  else if l = "java" then some "java"
  else if l = "php" then some "php"
  else if l = "swift" then some "swift"
  else if l = "html" then some "html"
  else if l = "css" then some "css"
  else if l = "scss" then some "scss"
  else if l = "less" then some "less"
  else if l = "json" then some "json"
  else if l = "xml" then some "xml"
  else if l = "sql" then some "sql"
  else none

/-- `normalizeLanguage`: `aliases[language.toLowerCase()] ||
language.toLowerCase()` (ASCII lower-casing). -/
def normalizeLanguage (language : String) : String :=
  jsOrStr (languageAliases (asciiLowerStr language)) (asciiLowerStr language)

/-! ## Streaming and timeout orchestration of `TokenizationService` -/

/-- `isLargeBlock(code, maxBlockSize)`. -/
def isLargeBlock (code : List Char) (maxBlockSize : Nat) : Bool :=
  maxBlockSize < code.length

/-- The line-chunks of the streaming loop: 500 lines
(`STREAMING_CHUNK_SIZE`) joined with newlines per chunk.  The loop
`for (i = 0; i < lines.length; i += 500)` runs at most `lines.length`
times, which serves as structural fuel. -/
def chunkLinesF : Nat → List (List Char) → List (List Char)
  | 0, _ => []
  | _, [] => []
  | fuel + 1, l :: ls => joinNl ((l :: ls).take 500) :: chunkLinesF fuel ((l :: ls).drop 500)

def chunkLines (ls : List (List Char)) : List (List Char) := chunkLinesF ls.length ls

/-- Shift a token's offsets by the cumulative length of prior chunks. -/
def shiftToken (pos : Nat) (t : Token) : Token :=
  { t with startIndex := t.startIndex + pos, endIndex := t.endIndex + pos }

/-- Chunk loop of `tokenizeWithStreaming`: `tok` is the per-chunk
tokenizer (`tokenizeWithTimeout` in the source), `ok j` tells whether
chunk `j` tokenizes without throwing (the `catch` branch degrades a
failing chunk to one plain-text token over that chunk).  Note the
success branch pushes only the chunk's own tokens and advances the
position past the inter-chunk newline without emitting a token for it. -/
def streamGo (tok : List Char → TokenizedCode) (ok : Nat → Bool) (th : ThemeData) :
    List (List Char) → Nat → Nat → List Token
  | [], _, _ => []
  | chunk :: rest, j, pos =>
    if ok j then
      (tok chunk).tokens.map (shiftToken pos) ++
      streamGo tok ok th rest (j + 1)
        (pos + chunk.length + (if rest.isEmpty then 0 else 1))
    else
      ⟨chunk, ["text"], pos, pos + chunk.length, th.foreground⟩ ::
      streamGo tok ok th rest (j + 1) (pos + chunk.length + 1)

/-- `tokenizeWithStreaming(code, language, themeData, timeout)` with the
per-chunk tokenizer and its failure behaviour abstracted as `tok`/`ok`. -/
def tokenizeWithStreaming (tok : List Char → TokenizedCode) (ok : Nat → Bool)
    (code : List Char) (language : String) (th : ThemeData) : TokenizedCode :=
  ⟨normalizeLanguage language, streamGo tok ok th (chunkLines (splitOnNl code)) 0 0⟩

/-- `tokenizeWithTimeout`: the race of the internal tokenizer against
the timeout, with the `catch` resolving to `createMinimalHighlighting`.
The internal tier-1/2 pipeline is host-dependent and abstracted as the
fallible `internal`; `timedOut` tells whether the timeout fires first. -/
def tokenizeWithTimeout (internal : List Char → Except Unit TokenizedCode)
    (timedOut : List Char → Bool) (code : List Char) (language : String)
    (th : ThemeData) : TokenizedCode :=
  if timedOut code then createMinimalHighlighting code language th
  else
    match internal code with
    | .ok r => r
    | .error _ => createMinimalHighlighting code language th

/-- Public `TokenizationService.tokenize`: size check routing to the
streaming path, otherwise the timeout race.  The surrounding
`try`/`catch` (which would also resolve to `createMinimalHighlighting`)
is unreachable here because both branches are total. -/
def tokenize (internal : List Char → Except Unit TokenizedCode)
    (timedOut : List Char → Bool) (code : List Char) (language : String)
    (th : ThemeData) (maxBlockSize : Nat) : TokenizedCode :=
  if isLargeBlock code maxBlockSize then
    tokenizeWithStreaming
      (fun chunk => tokenizeWithTimeout internal timedOut chunk language th)
      (fun _ => true) code language th
  else tokenizeWithTimeout internal timedOut code language th

/-! ## The LRU result cache (`CacheManager` of `src/unnamed/part_004`) -/

/-- Cache state: the `Map` is modelled as an insertion-ordered
association list with unique keys, `accessOrder` and `maxSize` as in
the source.  The per-entry `timestamp` is never consulted by eviction
and is dropped.  The value type is a parameter (the source instantiates
it with `TokenizedCode`; the cache never inspects values). -/
structure CacheManager (α : Type) where
  cache : List (String × α)
  accessOrder : List String
  maxSize : Nat
deriving DecidableEq, Repr

namespace CacheManager

def empty (α : Type) (maxSize : Nat) : CacheManager α := ⟨[], [], maxSize⟩

/-- `this.cache.get(key)` without the recency side effect. -/
def lookupVal (m : CacheManager α) (key : String) : Option α :=
  (m.cache.find? (fun p => p.1 == key)).map (·.2)

/-- `this.cache.has(key)`. -/
def hasKey (m : CacheManager α) (key : String) : Bool :=
  (m.cache.find? (fun p => p.1 == key)).isSome

/-- `updateAccessOrder`: remove the key, push it at the most-recent end. -/
def updateAccessOrder (ord : List String) (key : String) : List String :=
  ord.filter (fun k => !(k == key)) ++ [key]

/-- `evictLeastRecentlyUsed`: drop the head of `accessOrder` and delete
it from the map (`Map.delete` removes the unique entry with that key;
`filter` is equivalent on the unique-key states reachable here). -/
def evictLeastRecentlyUsed (m : CacheManager α) : CacheManager α :=
  match m.accessOrder with
  | [] => m
  | k :: rest => { m with cache := m.cache.filter (fun p => !(p.1 == k)), accessOrder := rest }

/-- `get(key)`: the returned value and the state after the recency
update on a hit. -/
def get (m : CacheManager α) (key : String) : Option α × CacheManager α :=
  match m.lookupVal key with
  | none => (none, m)
  | some v => (some v, { m with accessOrder := updateAccessOrder m.accessOrder key })

/-- `set(key, value)`: replace in place on an existing key, otherwise
evict when full and append the new entry. -/
def set (m : CacheManager α) (key : String) (v : α) : CacheManager α :=
  if (m.cache.find? (fun p => p.1 == key)).isSome then
    { m with
      cache := m.cache.map (fun p => if p.1 == key then (key, v) else p),
      accessOrder := updateAccessOrder m.accessOrder key }
  else
    let m1 := if m.maxSize ≤ m.cache.length then m.evictLeastRecentlyUsed else m
    { m1 with cache := m1.cache ++ [(key, v)], accessOrder := m1.accessOrder ++ [key] }

/-- Fold `set` over a list of keys with a fixed value. -/
def setList (m : CacheManager α) (ks : List String) (v : α) : CacheManager α :=
  ks.foldl (fun s k => s.set k v) m

end CacheManager

/-! ## Theme-kind detection (`detectThemeKind` of the preview script) -/

/-- Value of one hexadecimal digit. -/
def hexDigitVal (c : Char) : Option Nat :=
  if '0' ≤ c ∧ c ≤ '9' then some (c.toNat - 48)
  else if 'a' ≤ c ∧ c ≤ 'f' then some (c.toNat - 87)
  else if 'A' ≤ c ∧ c ≤ 'F' then some (c.toNat - 55)
  else none

/-- `parseColor` of the preview script on 6-digit hex colors
(`parseInt(hex.substr(…), 16)` per channel).  The `rgb()/rgba()` regex
branch of the source is not modelled; the claims under verification
exercise hex inputs only, and a failed parse yields `none` exactly
where the source's `detectThemeKind` would also classify `dark`. -/
def parseColor (s : String) : Option (Nat × Nat × Nat) :=
  match s.data with
  | '#' :: h1 :: h2 :: h3 :: h4 :: h5 :: h6 :: [] =>
    match hexDigitVal h1, hexDigitVal h2, hexDigitVal h3,
          hexDigitVal h4, hexDigitVal h5, hexDigitVal h6 with
    | some a, some b, some c, some d, some e, some f =>
      some (16 * a + b, 16 * c + d, 16 * e + f)
    | _, _, _, _, _, _ => none
  | _ => none

/-- Perceptual luminance `(0.299*r + 0.587*g + 0.114*b) / 255` as an
exact rational (the double-precision source computation is exact enough
that classification agrees on all integer channel values). -/
def luminance (r g b : Nat) : ℚ :=
  (299 / 1000 * r + 587 / 1000 * g + 114 / 1000 * b) / 255

/-- Classification of `detectThemeKind` after a successful parse. -/
def detectThemeKindRGB (r g b : Nat) : String :=
  if luminance r g b < 5 / 100 ∨ 95 / 100 < luminance r g b then "highContrast"
  else if 1 / 2 < luminance r g b then "light"
  else "dark"

/-- `detectThemeKind(bgColor)`: parse failure yields `'dark'`. -/
def detectThemeKind (bgColor : String) : String :=
  match parseColor bgColor with
  | none => "dark"
  | some (r, g, b) => detectThemeKindRGB r g b

/-! ## Auxiliary predicates and fixtures -/

/-- The filtered matches of a line form a chain: each starts no earlier
than the running position, is non-empty, and ends within the line. -/
def chainFrom (len : Nat) : Nat → List PatMatch → Prop
  | _, [] => True
  | pos, m :: ms => pos ≤ m.start ∧ m.start < m.stop ∧ m.stop ≤ len ∧ chainFrom len m.stop ms

/-- A theme fixture for concrete evaluations (the palette content is
irrelevant to the properties evaluated on it). -/
def th0 : ThemeData := ⟨"dark", [], "#1e1e1e", "#d4d4d4"⟩

/-- A block of 501 one-character lines: more lines than
`STREAMING_CHUNK_SIZE`, so the streaming path uses two chunks. -/
def bigCode : List Char := joinNl (List.replicate 501 ['a'])

/-- The precedence-scenario input
`use of 'return' word inside a string literal`. -/
def c6Input : List Char :=
  "use of ".toList ++ ['\''] ++ "return".toList ++ ['\''] ++
  " word inside a string literal".toList

/-- A matcher is well formed when its matches are non-empty and stay
inside the scanned suffix. -/
def MatcherWf (tA : Bool → List Char → Option Nat) : Prop :=
  ∀ pw s n, tA pw s = some n → 1 ≤ n ∧ n ≤ s.length

/-! ## Well-formedness of the anchored matchers -/

theorem findCloseComment_le (l : List Char) (n : Nat) (h : findCloseComment l = some n) :
    n + 2 ≤ l.length := by
  induction l generalizing n with
  | nil => simp [findCloseComment] at h
  | cons c rest ih =>
    simp only [findCloseComment] at h
    split at h
    · rename_i hc
      obtain ⟨-, hh⟩ := hc
      cases rest with
      | nil => simp at hh
      | cons d t =>
        simp only [Option.some.injEq] at h
        subst h
        simp
    · cases hr : findCloseComment rest with
      | none => rw [hr] at h; simp at h
      | some k =>
        rw [hr] at h
        simp only [Option.map_some', Option.some.injEq] at h
        subst h
        have := ih k hr
        simp only [List.length_cons]
        omega

theorem tryComment_wf (s : List Char) (n : Nat) (h : tryComment s = some n) :
    1 ≤ n ∧ n ≤ s.length := by
  cases s with
  | nil => simp [tryComment] at h
  | cons c rest =>
    simp only [tryComment] at h
    split at h
    · simp only [Option.some.injEq] at h
      subst h
      simp only [List.length_cons]
      omega
    · split at h
      · rename_i hnot hc
        cases hr : findCloseComment rest.tail with
        | none => rw [hr] at h; simp at h
        | some k =>
          rw [hr] at h
          simp only [Option.map_some', Option.some.injEq] at h
          subst h
          have hk := findCloseComment_le _ k hr
          obtain ⟨-, hh⟩ := hc
          cases rest with
          | nil => simp at hh
          | cons d t =>
            simp only [List.tail_cons] at hk
            simp only [List.length_cons]
            omega
      · split at h
        · simp only [Option.some.injEq] at h
          subst h
          simp only [List.length_cons]
          omega
        · simp at h

theorem strTail_wf (q : Char) :
    ∀ (l : List Char) (n : Nat), strTail q l = some n → 1 ≤ n ∧ n ≤ l.length
  | [], n, h => by simp [strTail] at h
  | [c], n, h => by
    simp only [strTail] at h
    split at h
    · simp only [Option.some.injEq] at h
      subst h
      simp
    · simp at h
  | c :: d :: rest2, n, h => by
    simp only [strTail] at h
    split at h
    · simp only [Option.some.injEq] at h
      subst h
      simp
    · split at h
      · split at h
        · rename_i k hk
          simp only [Option.some.injEq] at h
          subst h
          have := strTail_wf q rest2 k hk
          simp only [List.length_cons]
          omega
        · cases hr : strTail q (d :: rest2) with
          | none => rw [hr] at h; simp at h
          | some k =>
            rw [hr] at h
            simp only [Option.map_some', Option.some.injEq] at h
            subst h
            have := strTail_wf q (d :: rest2) k hr
            simp only [List.length_cons] at this ⊢
            omega
      · cases hr : strTail q (d :: rest2) with
        | none => rw [hr] at h; simp at h
        | some k =>
          rw [hr] at h
          simp only [Option.map_some', Option.some.injEq] at h
          subst h
          have := strTail_wf q (d :: rest2) k hr
          simp only [List.length_cons] at this ⊢
          omega

theorem tryString_wf (s : List Char) (n : Nat) (h : tryString s = some n) :
    1 ≤ n ∧ n ≤ s.length := by
  cases s with
  | nil => simp [tryString] at h
  | cons c rest =>
    simp only [tryString] at h
    split at h
    · cases hr : strTail c rest with
      | none => rw [hr] at h; simp at h
      | some k =>
        rw [hr] at h
        simp only [Option.map_some', Option.some.injEq] at h
        subst h
        have := strTail_wf c rest k hr
        simp only [List.length_cons]
        omega
    · simp at h

theorem tryNumber_wf (pw : Bool) (s : List Char) (n : Nat) (h : tryNumber pw s = some n) :
    1 ≤ n ∧ n ≤ s.length := by
  cases s with
  | nil => simp [tryNumber] at h
  | cons c t =>
    simp only [tryNumber] at h
    split at h
    · simp at h
    · rename_i hcd
      have hdig : isDigitChar c = true := by
        by_contra hc
        exact hcd (Or.inr (by simpa using hc))
      have hd1pos : 1 ≤ ((c :: t).takeWhile isDigitChar).length := by
        simp [List.takeWhile_cons, hdig]
      have hd1le : ((c :: t).takeWhile isDigitChar).length ≤ (c :: t).length :=
        (List.takeWhile_sublist _).length_le
      split at h
      · rename_i rest2 hdrop
        have hlen : (c :: t).length - ((c :: t).takeWhile isDigitChar).length =
            rest2.length + 1 := by
          have h2 := congrArg List.length hdrop
          simp only [List.length_drop, List.length_cons] at h2 ⊢
          omega
        have hd2le : (rest2.takeWhile isDigitChar).length ≤ rest2.length :=
          (List.takeWhile_sublist _).length_le
        split at h
        · split at h <;>
            (simp only [Option.some.injEq] at h; subst h; constructor <;> omega)
        · split at h <;>
            (simp only [Option.some.injEq] at h; subst h; constructor <;> omega)
      · split at h
        · simp only [Option.some.injEq] at h
          subst h
          exact ⟨hd1pos, hd1le⟩
        · simp at h

theorem startsWithCI_le (kw s : List Char) (h : startsWithCI kw s = true) :
    kw.length ≤ s.length := by
  induction kw generalizing s with
  | nil => simp
  | cons k kr ih =>
    cases s with
    | nil => simp [startsWithCI] at h
    | cons c cr =>
      simp only [startsWithCI, Bool.decide_and, Bool.and_eq_true, decide_eq_true_eq] at h
      have := ih cr (by simpa using h.2)
      simp only [List.length_cons]
      omega

theorem tryKeyword_wf (kws : List (List Char)) (hk : ∀ kw ∈ kws, kw ≠ [])
    (pw : Bool) (s : List Char) (n : Nat) (h : tryKeyword kws pw s = some n) :
    1 ≤ n ∧ n ≤ s.length := by
  induction kws with
  | nil => simp only [tryKeyword] at h; split at h <;> simp at h
  | cons kw rest ih =>
    simp only [tryKeyword] at h
    split at h
    · simp at h
    · split at h
      · rename_i hcond
        simp only [Option.some.injEq] at h
        subst h
        obtain ⟨hpre, -⟩ := by exact_mod_cast hcond
        refine ⟨?_, startsWithCI_le kw s hpre⟩
        have : kw ≠ [] := hk kw (List.mem_cons_self kw rest)
        cases kw with
        | nil => exact absurd rfl this
        | cons a b => simp
      · have hrec : tryKeyword rest pw s = some n := by
          simpa [tryKeyword, *] using h
        exact ih (fun k hkm => hk k (List.mem_cons_of_mem kw hkm)) hrec

/-! ## Scanner lemmas -/

theorem scanAux_wf (tA : Bool → List Char → Option Nat) (tt : String) (line : List Char)
    (hA : MatcherWf tA) :
    ∀ (fuel i : Nat) (m : PatMatch), m ∈ scanAux tA tt line fuel i →
      m.start < m.stop ∧ m.stop ≤ line.length := by
  intro fuel
  induction fuel with
  | zero => intro i m hm; simp [scanAux] at hm
  | succ f ih =>
    intro i m hm
    simp only [scanAux] at hm
    split at hm
    · rename_i hi
      split at hm
      · rename_i len hlen
        rcases List.mem_cons.mp hm with rfl | hmem
        · have hw := hA _ _ _ hlen
          have hd : (line.drop i).length = line.length - i := List.length_drop i line
          constructor
          · simp only
            omega
          · simp only
            omega
        · exact ih _ m hmem
      · exact ih _ m hm
    · simp at hm

theorem scanAux_ttype (tA : Bool → List Char → Option Nat) (tt : String) (line : List Char) :
    ∀ (fuel i : Nat) (m : PatMatch), m ∈ scanAux tA tt line fuel i → m.ttype = tt := by
  intro fuel
  induction fuel with
  | zero => intro i m hm; simp [scanAux] at hm
  | succ f ih =>
    intro i m hm
    simp only [scanAux] at hm
    split at hm
    · split at hm
      · rcases List.mem_cons.mp hm with rfl | hmem
        · rfl
        · exact ih _ m hmem
      · exact ih _ m hm
    · simp at hm

theorem scanMatches_wf (tA : Bool → List Char → Option Nat) (tt : String) (line : List Char)
    (hA : MatcherWf tA) (m : PatMatch) (hm : m ∈ scanMatches tA tt line) :
    m.start < m.stop ∧ m.stop ≤ line.length :=
  scanAux_wf tA tt line hA _ _ m hm

theorem previewKeywords_ne_nil : ∀ kw ∈ previewKeywords, kw ≠ [] := by decide

theorem minimalKeywords_ne_nil : ∀ kw ∈ minimalKeywords, kw ≠ [] := by decide

theorem tryComment_matcherWf : MatcherWf (fun _ s => tryComment s) :=
  fun _ s n h => tryComment_wf s n h

theorem tryString_matcherWf : MatcherWf (fun _ s => tryString s) :=
  fun _ s n h => tryString_wf s n h

theorem tryNumber_matcherWf : MatcherWf tryNumber :=
  fun pw s n h => tryNumber_wf pw s n h

theorem tryKeyword_matcherWf (kws : List (List Char)) (hk : ∀ kw ∈ kws, kw ≠ []) :
    MatcherWf (tryKeyword kws) :=
  fun pw s n h => tryKeyword_wf kws hk pw s n h

theorem previewLineMatches_wf (line : List Char) (m : PatMatch)
    (hm : m ∈ previewLineMatches line) : m.start < m.stop ∧ m.stop ≤ line.length := by
  simp only [previewLineMatches, List.mem_append] at hm
  rcases hm with ((h | h) | h) | h
  · exact scanMatches_wf _ _ _ tryComment_matcherWf m h
  · exact scanMatches_wf _ _ _ tryString_matcherWf m h
  · exact scanMatches_wf _ _ _ tryNumber_matcherWf m h
  · exact scanMatches_wf _ _ _ (tryKeyword_matcherWf _ previewKeywords_ne_nil) m h

theorem minimalLineMatches_wf (line : List Char) (m : PatMatch)
    (hm : m ∈ minimalLineMatches line) : m.start < m.stop ∧ m.stop ≤ line.length := by
  simp only [minimalLineMatches, List.mem_append] at hm
  rcases hm with ((h | h) | h) | h
  · exact scanMatches_wf _ _ _ tryComment_matcherWf m h
  · exact scanMatches_wf _ _ _ tryString_matcherWf m h
  · exact scanMatches_wf _ _ _ (tryKeyword_matcherWf _ minimalKeywords_ne_nil) m h
  · exact scanMatches_wf _ _ _ tryNumber_matcherWf m h

/-! ## Sort and overlap-filter lemmas -/

theorem mem_insertByStart (m x : PatMatch) (l : List PatMatch)
    (h : x ∈ insertByStart m l) : x = m ∨ x ∈ l := by
  induction l with
  | nil => simpa [insertByStart] using h
  | cons y ys ih =>
    simp only [insertByStart] at h
    split at h
    · rcases List.mem_cons.mp h with rfl | h2
      · exact Or.inr (List.mem_cons_self _ _)
      · rcases ih h2 with h3 | h3
        · exact Or.inl h3
        · exact Or.inr (List.mem_cons_of_mem _ h3)
    · rcases List.mem_cons.mp h with rfl | h2
      · exact Or.inl rfl
      · exact Or.inr h2

theorem mem_sortByStart (x : PatMatch) (l : List PatMatch) (h : x ∈ sortByStart l) :
    x ∈ l := by
  induction l with
  | nil => simp [sortByStart] at h
  | cons y ys ih =>
    simp only [sortByStart] at h
    rcases mem_insertByStart y x _ h with rfl | h2
    · exact List.mem_cons_self _ _
    · exact List.mem_cons_of_mem _ (ih h2)

theorem mem_overlapFilter (x : PatMatch) :
    ∀ (l : List PatMatch) (lastEnd : Int), x ∈ overlapFilter lastEnd l → x ∈ l := by
  intro l
  induction l with
  | nil => intro lastEnd h; simp [overlapFilter] at h
  | cons m ms ih =>
    intro lastEnd h
    simp only [overlapFilter] at h
    split at h
    · rcases List.mem_cons.mp h with rfl | h2
      · exact List.mem_cons_self _ _
      · exact List.mem_cons_of_mem _ (ih _ h2)
    · exact List.mem_cons_of_mem _ (ih _ h)

theorem overlapFilter_chain (len : Nat) :
    ∀ (l : List PatMatch) (lastEnd : Int) (pos : Nat),
      (∀ m ∈ l, m.start < m.stop ∧ m.stop ≤ len) →
      ((pos : Int) ≤ lastEnd ∨ pos = 0) →
      chainFrom len pos (overlapFilter lastEnd l) := by
  intro l
  induction l with
  | nil => intro lastEnd pos _ _; simp [overlapFilter, chainFrom]
  | cons m ms ih =>
    intro lastEnd pos hwf hpos
    simp only [overlapFilter]
    split
    · rename_i hkeep
      obtain ⟨h1, h2⟩ := hwf m (List.mem_cons_self _ _)
      refine ⟨?_, h1, h2, ?_⟩
      · rcases hpos with hp | hp
        · exact_mod_cast le_trans hp hkeep
        · omega
      · exact ih (m.stop : Int) m.stop
          (fun x hx => hwf x (List.mem_cons_of_mem _ hx)) (Or.inl le_rfl)
    · exact ih lastEnd pos (fun x hx => hwf x (List.mem_cons_of_mem _ hx)) hpos

/-- The filtered matches of a `tokenizeCode` line form a chain from 0. -/
theorem previewFiltered_chain (line : List Char) :
    chainFrom line.length 0 (overlapFilter (-1) (sortByStart (previewLineMatches line))) := by
  refine overlapFilter_chain line.length _ (-1) 0 ?_ (Or.inr rfl)
  intro m hm
  exact previewLineMatches_wf line m (mem_sortByStart m _ hm)

/-- The filtered matches of a `createMinimalHighlighting` line form a
chain from 0. -/
theorem minimalFiltered_chain (line : List Char) :
    chainFrom line.length 0 (minimalFiltered line) := by
  refine overlapFilter_chain line.length _ (-1) 0 ?_ (Or.inr rfl)
  intro m hm
  exact minimalLineMatches_wf line m (mem_sortByStart m _ hm)

/-! ## Concatenation of the emitted spans (round trip) -/

theorem concatSpans_nil : concatSpans [] = [] := rfl

theorem concatSpans_cons (s : Span) (l : List Span) :
    concatSpans (s :: l) = s.text ++ concatSpans l := by
  simp [concatSpans]

theorem concatSpans_append (a b : List Span) :
    concatSpans (a ++ b) = concatSpans a ++ concatSpans b := by
  simp [concatSpans]

theorem concatTok_nil : concatTok [] = [] := rfl

theorem concatTok_cons (t : Token) (l : List Token) :
    concatTok (t :: l) = t.text ++ concatTok l := by
  simp [concatTok]

theorem concatTok_append (a b : List Token) :
    concatTok (a ++ b) = concatTok a ++ concatTok b := by
  simp [concatTok]

/-- Splitting a suffix of the line at an intermediate offset. -/
theorem drop_split (l : List Char) (a b : Nat) (hab : a ≤ b) :
    l.drop a = sublist l a b ++ l.drop b := by
  have h1 : l.drop b = (l.drop a).drop (b - a) := by
    rw [List.drop_drop]
    congr 1
    omega
  rw [h1, sublist]
  exact (List.take_append_drop (b - a) (l.drop a)).symm

theorem emitSpans_concat (line : List Char) :
    ∀ (fs : List PatMatch) (pos : Nat), chainFrom line.length pos fs →
      concatSpans (emitSpans line pos fs) = line.drop pos := by
  intro fs
  induction fs with
  | nil =>
    intro pos _
    simp only [emitSpans]
    split
    · simp [concatSpans]
    · rename_i hpos
      rw [List.drop_eq_nil_of_le (by omega)]
      rfl
  | cons m ms ih =>
    intro pos h
    obtain ⟨h1, h2, h3, h4⟩ := h
    simp only [emitSpans]
    rw [concatSpans_append, concatSpans_cons, ih m.stop h4]
    by_cases hg : pos < m.start
    · rw [if_pos hg, concatSpans_cons, concatSpans_nil]
      rw [drop_split line pos m.start (le_of_lt hg), drop_split line m.start m.stop (le_of_lt h2)]
      simp
    · rw [if_neg hg]
      have hpe : pos = m.start := by omega
      subst hpe
      rw [drop_split line m.start m.stop (le_of_lt h2)]
      simp [concatSpans]

theorem lineSpans_concat (line : List Char) : concatSpans (lineSpans line) = line := by
  have := emitSpans_concat line
    (overlapFilter (-1) (sortByStart (previewLineMatches line))) 0 (previewFiltered_chain line)
  simpa [lineSpans] using this

theorem previewLinesSpans_concat : ∀ ls, concatSpans (previewLinesSpans ls) = joinNl ls := by
  intro ls
  induction ls with
  | nil => simp [previewLinesSpans, joinNl, concatSpans]
  | cons l ls ih =>
    cases ls with
    | nil => simp [previewLinesSpans, joinNl, lineSpans_concat]
    | cons l' ls' =>
      simp only [previewLinesSpans, joinNl]
      rw [concatSpans_append, concatSpans_cons, lineSpans_concat, ih]
      simp

theorem tokenizeCode_concat (code : List Char) (language : String) :
    concatSpans (tokenizeCode code language) = code := by
  rw [tokenizeCode, previewLinesSpans_concat, joinNl_splitOnNl]

theorem minEmit_concat (th : ThemeData) (line : List Char) (position : Nat) :
    ∀ (fs : List PatMatch) (linePos : Nat), chainFrom line.length linePos fs →
      concatTok (minEmit th line position linePos fs) = line.drop linePos := by
  intro fs
  induction fs with
  | nil =>
    intro linePos _
    simp only [minEmit]
    split
    · simp [concatTok]
    · rename_i hpos
      rw [List.drop_eq_nil_of_le (by omega)]
      rfl
  | cons m ms ih =>
    intro linePos h
    obtain ⟨h1, h2, h3, h4⟩ := h
    simp only [minEmit]
    rw [concatTok_append, concatTok_cons, ih m.stop h4]
    by_cases hg : linePos < m.start
    · rw [if_pos hg, concatTok_cons, concatTok_nil]
      rw [drop_split line linePos m.start (le_of_lt hg), drop_split line m.start m.stop (le_of_lt h2)]
      simp
    · rw [if_neg hg]
      have hpe : linePos = m.start := by omega
      subst hpe
      rw [drop_split line m.start m.stop (le_of_lt h2)]
      simp [concatTok]

theorem minimalLines_concat (th : ThemeData) :
    ∀ (ls : List (List Char)) (position : Nat),
      concatTok (minimalLines th ls position) = joinNl ls := by
  intro ls
  induction ls with
  | nil => intro position; simp [minimalLines, joinNl, concatTok]
  | cons l ls ih =>
    intro position
    cases ls with
    | nil =>
      simp only [minimalLines, joinNl]
      exact minEmit_concat th l position (minimalFiltered l) 0 (minimalFiltered_chain l)
    | cons l' ls' =>
      simp only [minimalLines, joinNl]
      rw [concatTok_append, concatTok_cons,
        minEmit_concat th l position (minimalFiltered l) 0 (minimalFiltered_chain l), ih]
      simp

/-- Shared round-trip fact for the tier-3 fallback. -/
theorem createMinimalHighlighting_concat (code : List Char) (language : String)
    (th : ThemeData) : concatTok (createMinimalHighlighting code language th).tokens = code := by
  simp only [createMinimalHighlighting]
  split
  · simp [concatTok]
  · rw [minimalLines_concat, joinNl_splitOnNl]

/-! ## Non-emptiness of emitted spans -/

theorem sublist_ne_nil (l : List Char) (a b : Nat) (hab : a < b) (hb : b ≤ l.length) :
    sublist l a b ≠ [] := by
  have : 0 < (sublist l a b).length := by
    simp only [sublist, List.length_take, List.length_drop]
    omega
  exact List.length_pos.mp this

theorem emitSpans_text_ne_nil (line : List Char) :
    ∀ (fs : List PatMatch) (pos : Nat), chainFrom line.length pos fs →
      ∀ sp ∈ emitSpans line pos fs, sp.text ≠ [] := by
  intro fs
  induction fs with
  | nil =>
    intro pos _ sp hsp
    simp only [emitSpans] at hsp
    split at hsp
    · rename_i hlt
      rcases List.mem_singleton.mp hsp with rfl
      have : 0 < (line.drop pos).length := by
        simp only [List.length_drop]
        omega
      exact List.length_pos.mp this
    · simp at hsp
  | cons m ms ih =>
    intro pos h sp hsp
    obtain ⟨h1, h2, h3, h4⟩ := h
    simp only [emitSpans, List.mem_append, List.mem_cons] at hsp
    rcases hsp with hg | hsp
    · split at hg
      · rename_i hlt
        rcases List.mem_singleton.mp hg with rfl
        exact sublist_ne_nil line pos m.start hlt (le_trans (le_of_lt h2) h3)
      · simp at hg
    · rcases hsp with rfl | hsp
      · exact sublist_ne_nil line m.start m.stop h2 h3
      · exact ih m.stop h4 sp hsp

theorem minEmit_text_ne_nil (th : ThemeData) (line : List Char) (position : Nat) :
    ∀ (fs : List PatMatch) (linePos : Nat), chainFrom line.length linePos fs →
      ∀ tk ∈ minEmit th line position linePos fs, tk.text ≠ [] := by
  intro fs
  induction fs with
  | nil =>
    intro linePos _ tk htk
    simp only [minEmit] at htk
    split at htk
    · rename_i hlt
      rcases List.mem_singleton.mp htk with rfl
      have : 0 < (line.drop linePos).length := by
        simp only [List.length_drop]
        omega
      exact List.length_pos.mp this
    · simp at htk
  | cons m ms ih =>
    intro linePos h tk htk
    obtain ⟨h1, h2, h3, h4⟩ := h
    simp only [minEmit, List.mem_append, List.mem_cons] at htk
    rcases htk with hg | htk
    · split at hg
      · rename_i hlt
        rcases List.mem_singleton.mp hg with rfl
        exact sublist_ne_nil line linePos m.start hlt (le_trans (le_of_lt h2) h3)
      · simp at hg
    · rcases htk with rfl | htk
      · exact sublist_ne_nil line m.start m.stop h2 h3
      · exact ih m.stop h4 tk htk

theorem lineSpans_text_ne_nil (line : List Char) (sp : Span) (hsp : sp ∈ lineSpans line) :
    sp.text ≠ [] :=
  emitSpans_text_ne_nil line _ 0 (previewFiltered_chain line) sp hsp

theorem previewLinesSpans_text_ne_nil :
    ∀ (ls : List (List Char)) (sp : Span), sp ∈ previewLinesSpans ls → sp.text ≠ [] := by
  intro ls
  induction ls with
  | nil => intro sp hsp; simp [previewLinesSpans] at hsp
  | cons l ls ih =>
    cases ls with
    | nil =>
      intro sp hsp
      exact lineSpans_text_ne_nil l sp hsp
    | cons l' ls' =>
      intro sp hsp
      simp only [previewLinesSpans, List.mem_append, List.mem_cons] at hsp
      rcases hsp with h | h | h
      · exact lineSpans_text_ne_nil l sp h
      · subst h; simp
      · exact ih sp h

theorem minimalLines_text_ne_nil (th : ThemeData) :
    ∀ (ls : List (List Char)) (position : Nat) (tk : Token),
      tk ∈ minimalLines th ls position → tk.text ≠ [] := by
  intro ls
  induction ls with
  | nil => intro position tk htk; simp [minimalLines] at htk
  | cons l ls ih =>
    cases ls with
    | nil =>
      intro position tk htk
      exact minEmit_text_ne_nil th l position _ 0 (minimalFiltered_chain l) tk htk
    | cons l' ls' =>
      intro position tk htk
      simp only [minimalLines, List.mem_append, List.mem_cons] at htk
      rcases htk with h | h | h
      · exact minEmit_text_ne_nil th l position _ 0 (minimalFiltered_chain l) tk h
      · subst h; simp
      · exact ih _ tk h

theorem emitSpans_ne_nil (line : List Char) (hline : line ≠ []) (fs : List PatMatch) :
    emitSpans line 0 fs ≠ [] := by
  cases fs with
  | nil =>
    simp only [emitSpans]
    rw [if_pos (List.length_pos.mpr hline)]
    simp
  | cons m ms =>
    simp only [emitSpans]
    intro hcontra
    rcases List.append_eq_nil.mp hcontra with ⟨-, h2⟩
    simp at h2

theorem tokenizeCode_ne_nil (code : List Char) (language : String) (hcode : code ≠ []) :
    tokenizeCode code language ≠ [] := by
  rw [tokenizeCode]
  cases hsplit : splitOnNl code with
  | nil => exact absurd hsplit (splitOnNl_ne_nil code)
  | cons l ls =>
    cases ls with
    | nil =>
      have hl : l = code := by
        have := joinNl_splitOnNl code
        rw [hsplit] at this
        simpa [joinNl] using this
      subst hl
      simpa [previewLinesSpans, lineSpans] using
        emitSpans_ne_nil l hcode _
    | cons l' ls' =>
      simp only [previewLinesSpans]
      intro hcontra
      rcases List.append_eq_nil.mp hcontra with ⟨-, h2⟩
      simp at h2

theorem minimalLines_ne_nil (th : ThemeData) (code : List Char) (hcode : code ≠ []) :
    minimalLines th (splitOnNl code) 0 ≠ [] := by
  cases hsplit : splitOnNl code with
  | nil => exact absurd hsplit (splitOnNl_ne_nil code)
  | cons l ls =>
    cases ls with
    | nil =>
      have hl : l = code := by
        have := joinNl_splitOnNl code
        rw [hsplit] at this
        simpa [joinNl] using this
      subst hl
      simp only [minimalLines]
      cases hf : minimalFiltered l with
      | nil =>
        simp only [minEmit]
        rw [if_pos (List.length_pos.mpr hcode)]
        simp
      | cons m ms =>
        simp only [minEmit]
        intro hcontra
        rcases List.append_eq_nil.mp hcontra with ⟨-, h2⟩
        simp at h2
    | cons l' ls' =>
      simp only [minimalLines]
      intro hcontra
      rcases List.append_eq_nil.mp hcontra with ⟨-, h2⟩
      simp at h2

theorem createMinimalHighlighting_tokens_ne_nil (code : List Char) (language : String)
    (th : ThemeData) (hcode : code ≠ []) :
    (createMinimalHighlighting code language th).tokens ≠ [] := by
  simp only [createMinimalHighlighting]
  split
  · simp
  · rename_i hne
    simpa using minimalLines_ne_nil th code hcode

theorem createMinimalHighlighting_nonempty_text (code : List Char) (language : String)
    (th : ThemeData) (hcode : code ≠ []) (tk : Token)
    (htk : tk ∈ (createMinimalHighlighting code language th).tokens) : tk.text ≠ [] := by
  simp only [createMinimalHighlighting] at htk
  split at htk
  · rename_i hempty
    exact absurd (List.isEmpty_iff.mp hempty) (minimalLines_ne_nil th code hcode)
  · exact minimalLines_text_ne_nil th (splitOnNl code) 0 tk htk

/-! ## Token types emitted by the pattern tier -/

theorem previewLineMatches_types (line : List Char) (m : PatMatch)
    (hm : m ∈ previewLineMatches line) :
    m.ttype ∈ (["comment", "string", "number", "keyword"] : List String) := by
  simp only [previewLineMatches, List.mem_append] at hm
  rcases hm with ((h | h) | h) | h <;>
    simp [scanAux_ttype _ _ _ _ _ m h, scanMatches] at h ⊢

theorem minimalLineMatches_types (line : List Char) (m : PatMatch)
    (hm : m ∈ minimalLineMatches line) :
    m.ttype ∈ (["comment", "string", "number", "keyword"] : List String) := by
  simp only [minimalLineMatches, List.mem_append] at hm
  rcases hm with ((h | h) | h) | h <;>
    simp [scanAux_ttype _ _ _ _ _ m h, scanMatches] at h ⊢

theorem emitSpans_types (line : List Char) (T : List String) :
    ∀ (fs : List PatMatch) (pos : Nat), (∀ m ∈ fs, m.ttype ∈ T) →
      ∀ sp ∈ emitSpans line pos fs, sp.ttype = "text" ∨ sp.ttype ∈ T := by
  intro fs
  induction fs with
  | nil =>
    intro pos _ sp hsp
    simp only [emitSpans] at hsp
    split at hsp
    · rcases List.mem_singleton.mp hsp with rfl
      exact Or.inl rfl
    · simp at hsp
  | cons m ms ih =>
    intro pos hT sp hsp
    simp only [emitSpans, List.mem_append, List.mem_cons] at hsp
    rcases hsp with hg | hsp
    · split at hg
      · rcases List.mem_singleton.mp hg with rfl
        exact Or.inl rfl
      · simp at hg
    · rcases hsp with rfl | hsp
      · exact Or.inr (hT m (List.mem_cons_self _ _))
      · exact ih m.stop (fun x hx => hT x (List.mem_cons_of_mem _ hx)) sp hsp

theorem minEmit_types (th : ThemeData) (line : List Char) (position : Nat) (T : List String) :
    ∀ (fs : List PatMatch) (linePos : Nat), (∀ m ∈ fs, m.ttype ∈ T) →
      ∀ tk ∈ minEmit th line position linePos fs,
        tk.scopes = ["text"] ∨ ∃ t ∈ T, tk.scopes = [t] := by
  intro fs
  induction fs with
  | nil =>
    intro linePos _ tk htk
    simp only [minEmit] at htk
    split at htk
    · rcases List.mem_singleton.mp htk with rfl
      exact Or.inl rfl
    · simp at htk
  | cons m ms ih =>
    intro linePos hT tk htk
    simp only [minEmit, List.mem_append, List.mem_cons] at htk
    rcases htk with hg | htk
    · split at hg
      · rcases List.mem_singleton.mp hg with rfl
        exact Or.inl rfl
      · simp at hg
    · rcases htk with rfl | htk
      · exact Or.inr ⟨m.ttype, hT m (List.mem_cons_self _ _), rfl⟩
      · exact ih m.stop (fun x hx => hT x (List.mem_cons_of_mem _ hx)) tk htk

theorem lineSpans_types (line : List Char) (sp : Span) (hsp : sp ∈ lineSpans line) :
    sp.ttype ∈ (["text", "comment", "string", "number", "keyword"] : List String) := by
  have := emitSpans_types line ["comment", "string", "number", "keyword"] _ 0
    (fun m hm => previewLineMatches_types line m (mem_sortByStart m _ (mem_overlapFilter m _ _ hm)))
    sp hsp
  rcases this with h | h
  · simp [h]
  · simp only [List.mem_cons] at h ⊢
    tauto

theorem previewLinesSpans_types :
    ∀ (ls : List (List Char)) (sp : Span), sp ∈ previewLinesSpans ls →
      sp.ttype ∈ (["text", "comment", "string", "number", "keyword"] : List String) := by
  intro ls
  induction ls with
  | nil => intro sp hsp; simp [previewLinesSpans] at hsp
  | cons l ls ih =>
    cases ls with
    | nil => intro sp hsp; exact lineSpans_types l sp hsp
    | cons l' ls' =>
      intro sp hsp
      simp only [previewLinesSpans, List.mem_append, List.mem_cons] at hsp
      rcases hsp with h | h | h
      · exact lineSpans_types l sp h
      · subst h; simp
      · exact ih sp h

theorem minimalLines_types (th : ThemeData) :
    ∀ (ls : List (List Char)) (position : Nat) (tk : Token),
      tk ∈ minimalLines th ls position →
      tk.scopes ∈ ([["text"], ["comment"], ["string"], ["number"], ["keyword"]] :
        List (List String)) := by
  intro ls
  induction ls with
  | nil => intro position tk htk; simp [minimalLines] at htk
  | cons l ls ih =>
    have hline : ∀ (l : List Char) (position : Nat) (tk : Token),
        tk ∈ minEmit th l position 0 (minimalFiltered l) →
        tk.scopes ∈ ([["text"], ["comment"], ["string"], ["number"], ["keyword"]] :
          List (List String)) := by
      intro l position tk htk
      have := minEmit_types th l position ["comment", "string", "number", "keyword"] _ 0
        (fun m hm =>
          minimalLineMatches_types l m (mem_sortByStart m _ (mem_overlapFilter m _ _ hm)))
        tk htk
      rcases this with h | ⟨t, ht, h⟩
      · simp [h]
      · simp only [List.mem_cons] at ht ⊢
        rcases ht with rfl | rfl | rfl | rfl | ht
        · tauto
        · tauto
        · tauto
        · tauto
        · simp at ht
    cases ls with
    | nil => intro position tk htk; exact hline l position tk htk
    | cons l' ls' =>
      intro position tk htk
      simp only [minimalLines, List.mem_append, List.mem_cons] at htk
      rcases htk with h | h | h
      · exact hline l position tk h
      · subst h; simp
      · exact ih _ tk h

/-! ## Streaming-path lemmas -/

theorem concatTok_shift (pos : Nat) (l : List Token) :
    concatTok (l.map (shiftToken pos)) = concatTok l := by
  induction l with
  | nil => rfl
  | cons t ts ih => simp [concatTok_cons, shiftToken, ih]

/-- The concatenated text of the streaming loop is the concatenation of
the chunk texts with no separator between chunks, whether a chunk
succeeds (inner round trip) or degrades to its plain-text token. -/
theorem streamGo_concat (tok : List Char → TokenizedCode) (ok : Nat → Bool) (th : ThemeData)
    (htok : ∀ c, concatTok (tok c).tokens = c) :
    ∀ (chunks : List (List Char)) (j pos : Nat),
      concatTok (streamGo tok ok th chunks j pos) = chunks.flatten := by
  intro chunks
  induction chunks with
  | nil => intro j pos; simp [streamGo, concatTok]
  | cons chunk rest ih =>
    intro j pos
    simp only [streamGo]
    split
    · rw [concatTok_append, concatTok_shift, htok, ih]
      simp
    · rw [concatTok_cons, ih]
      simp

theorem tokenizeWithStreaming_concat (tok : List Char → TokenizedCode) (ok : Nat → Bool)
    (code : List Char) (language : String) (th : ThemeData)
    (htok : ∀ c, concatTok (tok c).tokens = c) :
    concatTok (tokenizeWithStreaming tok ok code language th).tokens =
      (chunkLines (splitOnNl code)).flatten := by
  simp only [tokenizeWithStreaming]
  exact streamGo_concat tok ok th htok _ 0 0

set_option maxRecDepth 10000 in
theorem bigCode_length : bigCode.length = 1001 := by decide

set_option maxRecDepth 10000 in
theorem bigCode_chunks_flatten_length :
    ((chunkLines (splitOnNl bigCode)).flatten).length = 1000 := by decide

/-! ## Claim C1 -/

/-- C1: for every source text and every language hint, concatenating in
order the text fields of the spans returned by the pattern tokenizer
(`tokenizeCode` in the preview script, and likewise the tier-3
`createMinimalHighlighting`) reproduces the source text exactly,
including the newline characters re-inserted between lines. -/
theorem c1_pattern_tokenizer_roundtrip :
    ∀ (sourceText : List Char) (languageHint : String) (th : ThemeData),
      concatSpans (tokenizeCode sourceText languageHint) = sourceText ∧
      concatTok (createMinimalHighlighting sourceText languageHint th).tokens = sourceText :=
  fun sourceText languageHint th =>
    ⟨tokenizeCode_concat sourceText languageHint,
     createMinimalHighlighting_concat sourceText languageHint th⟩

/-! ## Claim C2 -/

/-- C2: the streaming path over a block of 501 one-character lines
(which exceeds a `maxBlockSizeChars` of 1000) loses the newline between
the two 500-line chunks: the concatenation of the emitted token texts
is not the original input, refuting the claimed round trip (each chunk
round-trips via `createMinimalHighlighting`, yet no token covers the
inter-chunk newline although the offsets skip over it). -/
theorem c2_streaming_drops_chunk_newline :
    1000 < bigCode.length ∧
    concatTok (tokenizeWithStreaming
        (fun c => createMinimalHighlighting c "javascript" th0) (fun _ => true)
        bigCode "javascript" th0).tokens ≠ bigCode := by
  constructor
  · rw [bigCode_length]
    norm_num
  · intro heq
    have h1 := tokenizeWithStreaming_concat
      (fun c => createMinimalHighlighting c "javascript" th0) (fun _ => true)
      bigCode "javascript" th0 (fun c => createMinimalHighlighting_concat c "javascript" th0)
    rw [heq] at h1
    have h2 := congrArg List.length h1
    rw [bigCode_length, bigCode_chunks_flatten_length] at h2
    norm_num at h2

/-! ## Claim C9 -/

/-- C9 (amended): the public tokenize operation never propagates a
failure: for every input within the size limit, when the internal
tokenization fails or the timeout elapses, `tokenize` resolves exactly
to `createMinimalHighlighting` of the same code, language and theme
(oversized inputs go down the streaming path, whose failed chunks
degrade to per-chunk fallbacks instead). -/
theorem c9_tokenize_resolves_to_fallback :
    ∀ (internal : List Char → Except Unit TokenizedCode) (timedOut : List Char → Bool)
      (code : List Char) (language : String) (th : ThemeData) (maxBlockSize : Nat),
      isLargeBlock code maxBlockSize = false →
      (internal code = .error () ∨ timedOut code = true) →
      tokenize internal timedOut code language th maxBlockSize =
        createMinimalHighlighting code language th := by
  intro internal timedOut code language th maxBlockSize hsize hfail
  simp only [tokenize, hsize, Bool.false_eq_true, if_false, tokenizeWithTimeout]
  by_cases ht : timedOut code = true
  · rw [if_pos ht]
  · rw [if_neg ht]
    rcases hfail with hf | hf
    · rw [hf]
    · exact absurd hf ht

/-- C9 witness: a concrete one-character block below the limit with a
failing internal tokenizer resolves to the minimal fallback. -/
theorem c9_tokenize_resolves_to_fallback_witness :
    isLargeBlock ['a'] 10000 = false ∧
    tokenize (fun _ => Except.error ()) (fun _ => false) ['a'] "javascript" th0 10000 =
      createMinimalHighlighting ['a'] "javascript" th0 :=
  ⟨by decide,
   c9_tokenize_resolves_to_fallback (fun _ => Except.error ()) (fun _ => false)
     ['a'] "javascript" th0 10000 (by decide) (Or.inl rfl)⟩

/-- C9 counterexample: for an oversized block (501 one-character lines,
limit 1000) with all internal tokenization failing, `tokenize` does not
resolve to `createMinimalHighlighting` of the same code — the streaming
result is missing the inter-chunk newline. -/
theorem c9_oversized_not_whole_block_fallback :
    isLargeBlock bigCode 1000 = true ∧
    tokenize (fun _ => Except.error ()) (fun _ => false) bigCode "javascript" th0 1000 ≠
      createMinimalHighlighting bigCode "javascript" th0 := by
  have hlarge : isLargeBlock bigCode 1000 = true := by
    simp [isLargeBlock, bigCode_length]
  refine ⟨hlarge, ?_⟩
  intro heq
  have htok : ∀ c,
      concatTok (tokenizeWithTimeout (fun _ => Except.error ()) (fun _ => false)
        c "javascript" th0).tokens = c := by
    intro c
    simp only [tokenizeWithTimeout, Bool.false_eq_true, if_false]
    exact createMinimalHighlighting_concat c "javascript" th0
  have h1 : concatTok (tokenize (fun _ => Except.error ()) (fun _ => false)
      bigCode "javascript" th0 1000).tokens = (chunkLines (splitOnNl bigCode)).flatten := by
    simp only [tokenize, hlarge, if_true]
    exact tokenizeWithStreaming_concat _ _ _ _ _ htok
  rw [heq, createMinimalHighlighting_concat] at h1
  have h2 := congrArg List.length h1
  rw [bigCode_length, bigCode_chunks_flatten_length] at h2
  norm_num at h2

/-! ## Claim C6 -/

/-- C6: on the input `use of 'return' word inside a string literal`
with language `javascript`, the string span starting at the earlier
offset wins the conflict resolution, the substring `return` stays
inside it as part of the string span's text, and no span of the output
is classified as a keyword. -/
theorem c6_keyword_inside_string_suppressed :
    tokenizeCode c6Input "javascript" =
      [⟨"use of ".toList, "text"⟩,
       ⟨['\''] ++ "return".toList ++ ['\''], "string"⟩,
       ⟨" word inside a string literal".toList, "text"⟩] ∧
    (tokenizeCode c6Input "javascript").all (fun sp => !(sp.ttype == "keyword")) = true := by
  constructor
  · decide
  · decide

/-! ## Claim C7 -/

/-- C7 counterexample: on the empty input, `tokenizeCode` returns the
empty span list (not a non-empty list with a whole-input text span),
and `createMinimalHighlighting` returns a single zero-length span. -/
theorem c7_empty_input_counterexample :
    tokenizeCode [] "javascript" = [] ∧
    (createMinimalHighlighting [] "javascript" th0).tokens =
      [⟨[], ["text"], 0, 0, "#d4d4d4"⟩] := by
  constructor
  · decide
  · decide

/-- C7 (amended): every span produced by the per-line scanning of the
pattern tier is non-zero-length, and for every non-empty input the
returned span list is non-empty (with a single whole-input text span
when no pattern matches); on the empty input, however, `tokenizeCode`
returns the empty list while `createMinimalHighlighting` returns one
zero-length text span covering the empty code. -/
theorem c7_fallback_guarantee :
    (∀ (code : List Char) (lang : String), ∀ sp ∈ tokenizeCode code lang, sp.text ≠ []) ∧
    (∀ (code : List Char) (lang : String) (th : ThemeData), code ≠ [] →
      ∀ tk ∈ (createMinimalHighlighting code lang th).tokens, tk.text ≠ []) ∧
    (∀ (code : List Char) (lang : String), code ≠ [] → tokenizeCode code lang ≠ []) ∧
    (∀ (code : List Char) (lang : String) (th : ThemeData), code ≠ [] →
      (createMinimalHighlighting code lang th).tokens ≠ []) ∧
    (∀ lang : String, tokenizeCode [] lang = []) ∧
    (∀ (lang : String) (th : ThemeData),
      (createMinimalHighlighting [] lang th).tokens = [⟨[], ["text"], 0, 0, th.foreground⟩]) := by
  refine ⟨?_, ?_, ?_, ?_, ?_, ?_⟩
  · intro code lang sp hsp
    rw [tokenizeCode] at hsp
    exact previewLinesSpans_text_ne_nil _ sp hsp
  · intro code lang th hcode tk htk
    exact createMinimalHighlighting_nonempty_text code lang th hcode tk htk
  · intro code lang hcode
    exact tokenizeCode_ne_nil code lang hcode
  · intro code lang th hcode
    exact createMinimalHighlighting_tokens_ne_nil code lang th hcode
  · intro lang
    rfl
  · intro lang th
    rfl

/-- C7 witness: the guarantees instantiated on the one-character input. -/
theorem c7_fallback_guarantee_witness :
    (['a'] : List Char) ≠ [] ∧
    (⟨['a'], "text"⟩ : Span) ∈ tokenizeCode ['a'] "q" ∧
    (⟨['a'], "text"⟩ : Span).text ≠ [] ∧
    tokenizeCode ['a'] "q" ≠ [] ∧
    (createMinimalHighlighting ['a'] "q" th0).tokens ≠ [] :=
  ⟨by decide,
   by decide,
   c7_fallback_guarantee.1 ['a'] "q" ⟨['a'], "text"⟩ (by decide),
   c7_fallback_guarantee.2.2.1 ['a'] "q" (by decide),
   c7_fallback_guarantee.2.2.2.1 ['a'] "q" th0 (by decide)⟩

/-! ## Claim C10 -/

/-- C10: every span emitted by the self-contained pattern tokenizer
(`tokenizeCode`, and likewise `createMinimalHighlighting`) has a token
type in the five-element set text, comment, string, number, keyword;
no other declared token type is produced by this tier. -/
theorem c10_tier_type_set :
    ∀ (code : List Char) (lang : String),
      (∀ sp ∈ tokenizeCode code lang,
        sp.ttype ∈ (["text", "comment", "string", "number", "keyword"] : List String)) ∧
      (∀ (th : ThemeData), ∀ tk ∈ (createMinimalHighlighting code lang th).tokens,
        tk.scopes ∈ ([["text"], ["comment"], ["string"], ["number"], ["keyword"]] :
          List (List String))) := by
  intro code lang
  constructor
  · intro sp hsp
    rw [tokenizeCode] at hsp
    exact previewLinesSpans_types _ sp hsp
  · intro th tk htk
    simp only [createMinimalHighlighting] at htk
    split at htk
    · rcases List.mem_singleton.mp htk with rfl
      simp
    · exact minimalLines_types th _ 0 tk htk

/-- C10 witness: the type-set membership at a concrete span and token. -/
theorem c10_tier_type_set_witness :
    (⟨['a'], "text"⟩ : Span) ∈ tokenizeCode ['a'] "q" ∧
    (⟨['a'], "text"⟩ : Span).ttype ∈
      (["text", "comment", "string", "number", "keyword"] : List String) ∧
    (⟨['a'], ["text"], 0, 1, "#d4d4d4"⟩ : Token) ∈
      (createMinimalHighlighting ['a'] "q" th0).tokens ∧
    (⟨['a'], ["text"], 0, 1, "#d4d4d4"⟩ : Token).scopes ∈
      ([["text"], ["comment"], ["string"], ["number"], ["keyword"]] : List (List String)) :=
  ⟨by decide,
   (c10_tier_type_set ['a'] "q").1 ⟨['a'], "text"⟩ (by decide),
   by decide,
   (c10_tier_type_set ['a'] "q").2 th0 ⟨['a'], ["text"], 0, 1, "#d4d4d4"⟩ (by decide)⟩

/-! ## Claim C4 -/

/-- Integer form of the luminance classification: scaling the rational
thresholds 0.05, 0.95 and 0.5 by the common denominator 255000. -/
theorem detectThemeKindRGB_int (r g b : Nat) :
    detectThemeKindRGB r g b =
      if 299 * r + 587 * g + 114 * b < 12750 ∨ 242250 < 299 * r + 587 * g + 114 * b
      then "highContrast"
      else if 127500 < 299 * r + 587 * g + 114 * b then "light" else "dark" := by
  have hl : luminance r g b = ((299 * r + 587 * g + 114 * b : ℕ) : ℚ) / 255000 := by
    unfold luminance
    push_cast
    ring
  have h255 : (0 : ℚ) < 255000 := by norm_num
  have h1 : (luminance r g b < 5 / 100) ↔ (299 * r + 587 * g + 114 * b < 12750) := by
    rw [hl, div_lt_iff₀ h255,
      show (5 : ℚ) / 100 * 255000 = ((12750 : ℕ) : ℚ) by norm_num, Nat.cast_lt]
  have h2 : (95 / 100 < luminance r g b) ↔ (242250 < 299 * r + 587 * g + 114 * b) := by
    rw [hl, lt_div_iff₀ h255,
      show (95 : ℚ) / 100 * 255000 = ((242250 : ℕ) : ℚ) by norm_num, Nat.cast_lt]
  have h3 : (1 / 2 < luminance r g b) ↔ (127500 < 299 * r + 587 * g + 114 * b) := by
    rw [hl, lt_div_iff₀ h255,
      show (1 : ℚ) / 2 * 255000 = ((127500 : ℕ) : ℚ) by norm_num, Nat.cast_lt]
  simp only [detectThemeKindRGB, h1, h2, h3]

/-- C4 counterexample: the background `#808080` is classified `light`
(its luminance 128/255 exceeds 0.5), not `dark` as claimed. -/
theorem c4_gray_is_light_counterexample :
    detectThemeKind "#808080" = "light" ∧ detectThemeKind "#808080" ≠ "dark" := by
  have hred : detectThemeKind "#808080" = detectThemeKindRGB 128 128 128 := rfl
  rw [hred, detectThemeKindRGB_int]
  norm_num
  decide

/-- C4 (amended): theme-kind classification computes luminance
`(0.299 R + 0.587 G + 0.114 B)/255` and returns `highContrast` below
0.05 or above 0.95, `light` above 0.5 and `dark` otherwise; background
`#000000` yields `highContrast`, `#ffffff` yields `highContrast`, and
`#808080` yields `light` (since 128/255 > 0.5). -/
theorem c4_theme_kind_classification :
    (∀ r g b : Nat, detectThemeKindRGB r g b =
      if 299 * r + 587 * g + 114 * b < 12750 ∨ 242250 < 299 * r + 587 * g + 114 * b
      then "highContrast"
      else if 127500 < 299 * r + 587 * g + 114 * b then "light" else "dark") ∧
    detectThemeKind "#000000" = "highContrast" ∧
    detectThemeKind "#ffffff" = "highContrast" ∧
    detectThemeKind "#808080" = "light" := by
  refine ⟨detectThemeKindRGB_int, ?_, ?_, ?_⟩
  · have hred : detectThemeKind "#000000" = detectThemeKindRGB 0 0 0 := rfl
    rw [hred, detectThemeKindRGB_int]
    norm_num
  · have hred : detectThemeKind "#ffffff" = detectThemeKindRGB 255 255 255 := rfl
    rw [hred, detectThemeKindRGB_int]
    norm_num
  · have hred : detectThemeKind "#808080" = detectThemeKindRGB 128 128 128 := rfl
    rw [hred, detectThemeKindRGB_int]
    norm_num

/-! ## Claim C8 -/

/-- C8: the colorizer maps each token type through the fixed
type-to-palette-key table (`method`, `event`, `macro` to `function`;
`interface`, `enum`, `struct`, `namespace`, `typeParameter` to `type`;
`modifier` to `keyword`; `enumMember` to `constant`), every unknown or
unmapped type falls back to the `variable` key, and a key absent from
the palette resolves to the theme's ambient foreground, so a color is
always produced. -/
theorem c8_colorizer_mapping :
    (∀ th : ThemeData, getColorForTokenType "method" th =
      jsOrStr (colorsLookup th.colors "function") th.foreground) ∧
    (∀ th : ThemeData, getColorForTokenType "interface" th =
      jsOrStr (colorsLookup th.colors "type") th.foreground) ∧
    (∀ th : ThemeData, getColorForTokenType "enum" th =
      jsOrStr (colorsLookup th.colors "type") th.foreground) ∧
    (∀ th : ThemeData, getColorForTokenType "struct" th =
      jsOrStr (colorsLookup th.colors "type") th.foreground) ∧
    (∀ th : ThemeData, getColorForTokenType "namespace" th =
      jsOrStr (colorsLookup th.colors "type") th.foreground) ∧
    (∀ th : ThemeData, getColorForTokenType "typeParameter" th =
      jsOrStr (colorsLookup th.colors "type") th.foreground) ∧
    (∀ th : ThemeData, getColorForTokenType "event" th =
      jsOrStr (colorsLookup th.colors "function") th.foreground) ∧
    (∀ th : ThemeData, getColorForTokenType "macro" th =
      jsOrStr (colorsLookup th.colors "function") th.foreground) ∧
    (∀ th : ThemeData, getColorForTokenType "modifier" th =
      jsOrStr (colorsLookup th.colors "keyword") th.foreground) ∧
    (∀ th : ThemeData, getColorForTokenType "enumMember" th =
      jsOrStr (colorsLookup th.colors "constant") th.foreground) ∧
    (∀ (t : String) (th : ThemeData), typeMapping t = none →
      getColorForTokenType t th = jsOrStr (colorsLookup th.colors "variable") th.foreground) ∧
    (∀ (t : String) (th : ThemeData), colorsLookup th.colors (mappedTypeFor t) = none →
      getColorForTokenType t th = th.foreground) := by
  refine ⟨fun th => rfl, fun th => rfl, fun th => rfl, fun th => rfl, fun th => rfl,
    fun th => rfl, fun th => rfl, fun th => rfl, fun th => rfl, fun th => rfl, ?_, ?_⟩
  · intro t th h
    simp only [getColorForTokenType, mappedTypeFor, h, jsOrStr]
  · intro t th h
    simp only [getColorForTokenType, h, jsOrStr]

/-- C8 witness: the unknown type `decorator` resolves through the
`variable` key, and with an empty palette the ambient foreground is
produced. -/
theorem c8_colorizer_mapping_witness :
    typeMapping "decorator" = none ∧
    getColorForTokenType "decorator" th0 =
      jsOrStr (colorsLookup th0.colors "variable") th0.foreground ∧
    colorsLookup th0.colors (mappedTypeFor "decorator") = none ∧
    getColorForTokenType "decorator" th0 = th0.foreground := by
  refine ⟨by decide, ?_, by decide, ?_⟩
  · exact c8_colorizer_mapping.2.2.2.2.2.2.2.2.2.2.1 "decorator" th0 (by decide)
  · exact c8_colorizer_mapping.2.2.2.2.2.2.2.2.2.2.2 "decorator" th0 (by decide)

/-! ## Cache lemmas -/

namespace CacheManager

variable {α : Type}

theorem find_map_none (v : α) (l : List String) (k : String) (hk : k ∉ l) :
    (l.map (fun x => (x, v))).find? (fun p => p.1 == k) = none := by
  induction l with
  | nil => rfl
  | cons a t ih =>
    have ha : (a == k) = false := by
      simp only [beq_eq_false_iff_ne, ne_eq]
      intro h
      exact hk (h ▸ List.mem_cons_self a t)
    simp only [List.map_cons, List.find?_cons, ha]
    exact ih (fun h => hk (List.mem_cons_of_mem a h))

theorem find_map_some (v : α) (l : List String) (k : String) (hk : k ∈ l) :
    (l.map (fun x => (x, v))).find? (fun p => p.1 == k) = some (k, v) := by
  induction l with
  | nil => simp at hk
  | cons a t ih =>
    by_cases ha : a = k
    · subst ha
      simp [List.find?_cons]
    · have ha2 : (a == k) = false := by simp [ha]
      simp only [List.map_cons, List.find?_cons, ha2]
      exact ih ((List.mem_cons.mp hk).resolve_left (fun h => ha h.symm))

theorem filter_map_keys (v : α) (l : List String) (k : String) :
    ((l.map (fun x => (x, v))).filter (fun p => !(p.1 == k))) =
      (l.filter (fun x => !(x == k))).map (fun x => (x, v)) := by
  induction l with
  | nil => rfl
  | cons a t ih =>
    by_cases ha : (a == k) = true
    · simp [List.filter_cons, ha, ih]
    · simp only [Bool.not_eq_true] at ha
      simp [List.filter_cons, ha, ih]

theorem filter_key_not_mem (l : List String) (k : String) (hk : k ∉ l) :
    l.filter (fun x => !(x == k)) = l := by
  induction l with
  | nil => rfl
  | cons a t ih =>
    have ha : ¬(a == k) = true := by
      simp only [beq_iff_eq]
      intro h
      exact hk (h ▸ List.mem_cons_self a t)
    simp only [List.filter_cons]
    rw [if_pos (by simp [ha])]
    rw [ih (fun h => hk (List.mem_cons_of_mem a h))]

theorem find_append_left {β : Type} {p : β → Bool} (l1 l2 : List β) (x : β)
    (h : l1.find? p = some x) : (l1 ++ l2).find? p = some x := by
  induction l1 with
  | nil => simp [List.find?] at h
  | cons a t ih =>
    rw [List.cons_append]
    by_cases hpa : p a = true
    · simp only [List.find?_cons, hpa] at h ⊢
      exact h
    · have hpa2 : p a = false := by simpa using hpa
      simp only [List.find?_cons, hpa2] at h ⊢
      exact ih h

theorem find_replace (l : List (String × α)) (k : String) (v : α)
    (h : (l.find? (fun p => p.1 == k)).isSome) :
    ((l.map (fun p => if p.1 == k then (k, v) else p)).find? (fun p => p.1 == k)) =
      some (k, v) := by
  induction l with
  | nil => simp [List.find?] at h
  | cons a t ih =>
    by_cases ha : (a.1 == k) = true
    · simp only [List.map_cons, if_pos ha, List.find?_cons]
      have hself : ((k, v).1 == k) = true := by simp
      simp [hself]
    · have ha2 : (a.1 == k) = false := by simpa using ha
      simp only [List.find?_cons, ha2] at h
      simp only [List.map_cons, List.find?_cons, ha2, Bool.false_eq_true, if_false]
      exact ih h

/-- Filling an LRU state whose access order mirrors the key list with
fresh distinct keys below capacity appends them in order. -/
theorem setList_fill (v : α) :
    ∀ (l pre : List String) (n : Nat), (pre ++ l).Nodup → pre.length + l.length ≤ n →
      setList (⟨pre.map (fun x => (x, v)), pre, n⟩ : CacheManager α) l v =
        ⟨(pre ++ l).map (fun x => (x, v)), pre ++ l, n⟩ := by
  intro l
  induction l with
  | nil =>
    intro pre n _ _
    simp [setList]
  | cons k l' ih =>
    intro pre n hnd hlen
    have hkpre : k ∉ pre := by
      rw [List.nodup_append] at hnd
      intro hmem
      exact hnd.2.2 hmem (List.mem_cons_self k l')
    have hstep : (⟨pre.map (fun x => (x, v)), pre, n⟩ : CacheManager α).set k v =
        ⟨(pre ++ [k]).map (fun x => (x, v)), pre ++ [k], n⟩ := by
      have hfind := find_map_none v pre k hkpre
      have hsz : ¬ n ≤ (pre.map (fun x => (x, v))).length := by
        simp only [List.length_map]
        simp only [List.length_cons] at hlen
        omega
      simp only [set, hfind, Option.isSome_none, Bool.false_eq_true, if_false, if_neg hsz]
      simp
    have hfold : setList (⟨pre.map (fun x => (x, v)), pre, n⟩ : CacheManager α) (k :: l') v =
        setList (⟨(pre ++ [k]).map (fun x => (x, v)), pre ++ [k], n⟩ : CacheManager α) l' v := by
      simp only [setList, List.foldl_cons]
      rw [hstep]
    have hnd2 : ((pre ++ [k]) ++ l').Nodup := by simpa using hnd
    have hlen2 : (pre ++ [k]).length + l'.length ≤ n := by
      simp only [List.length_append, List.length_cons, List.length_nil] at hlen ⊢
      omega
    rw [hfold, ih (pre ++ [k]) n hnd2 hlen2]
    simp

theorem setList_from_empty (v : α) (l : List String) (n : Nat) (hnd : l.Nodup)
    (hlen : l.length ≤ n) :
    setList (empty α n) l v = ⟨l.map (fun x => (x, v)), l, n⟩ := by
  have := setList_fill v l [] n (by simpa using hnd) (by simpa using hlen)
  simpa [empty] using this

/-- Inserting `maxEntries + 1` distinct keys into an empty cache of
capacity `n ≥ 1` evicts exactly the first inserted key. -/
theorem lru_overflow_evicts_head (v : α) (n : Nat) (hn : 1 ≤ n) (k0 : String)
    (rest : List String) (hnd : (k0 :: rest).Nodup) (hlen : rest.length = n) :
    (setList (empty α n) (k0 :: rest) v).hasKey k0 = false ∧
    ∀ k ∈ rest, (setList (empty α n) (k0 :: rest) v).hasKey k = true := by
  rcases List.eq_nil_or_concat rest with rfl | ⟨ys, y, rfl⟩
  · simp at hlen
    omega
  · simp only [List.concat_eq_append] at hnd hlen ⊢
    have hsplit : k0 :: (ys ++ [y]) = (k0 :: ys) ++ [y] := rfl
    have hnody : (k0 :: ys).Nodup := by
      rw [hsplit, List.nodup_append] at hnd
      exact hnd.1
    have hk0notys : k0 ∉ ys := (List.nodup_cons.mp hnody).1
    have hylen : (k0 :: ys).length = n := by
      simp only [List.length_append, List.length_cons, List.length_nil] at hlen ⊢
      omega
    have hynotin : y ∉ k0 :: ys := by
      rw [hsplit, List.nodup_append] at hnd
      intro hmem
      exact hnd.2.2 hmem (List.mem_singleton.mpr rfl)
    have hfoldl : setList (empty α n) (k0 :: (ys ++ [y])) v =
        (setList (empty α n) (k0 :: ys) v).set y v := by
      rw [hsplit]
      simp [setList, List.foldl_append]
    have hfill := setList_from_empty v (k0 :: ys) n hnody (le_of_eq hylen)
    have hset : (⟨(k0 :: ys).map (fun x => (x, v)), k0 :: ys, n⟩ : CacheManager α).set y v =
        ⟨(ys ++ [y]).map (fun x => (x, v)), ys ++ [y], n⟩ := by
      have hfind := find_map_none v (k0 :: ys) y hynotin
      have hsz : n ≤ ((k0 :: ys).map (fun x => (x, v))).length := by
        simp only [List.length_cons] at hylen
        simp only [List.length_map, List.length_cons]
        omega
      have hfk0 : (k0 :: ys).filter (fun x => !(x == k0)) = ys := by
        simp only [List.filter_cons, beq_self_eq_true, Bool.not_true, Bool.false_eq_true,
          if_false]
        exact filter_key_not_mem ys k0 hk0notys
      simp only [set, hfind, Option.isSome_none, Bool.false_eq_true, if_false, if_pos hsz,
        evictLeastRecentlyUsed, filter_map_keys, hfk0]
      simp
    rw [hfoldl, hfill, hset]
    constructor
    · have hk0not : k0 ∉ ys ++ [y] := by
        simp only [List.mem_append, List.mem_singleton]
        rintro (h | rfl)
        · exact hk0notys h
        · exact hynotin (List.mem_cons_self _ _)
      simp only [hasKey, find_map_none v (ys ++ [y]) k0 hk0not, Option.isSome_none]
    · intro k hk
      simp only [hasKey, find_map_some v (ys ++ [y]) k hk, Option.isSome_some]

/-- In a full cache of capacity at least two, a key freshened by `get`
survives the eviction caused by inserting a fresh key. -/
theorem lru_get_protects (v : α) (n : Nat) (hn : 2 ≤ n) (l : List String)
    (hnd : l.Nodup) (hlen : l.length = n) (k : String) (hk : k ∈ l)
    (knew : String) (hknew : knew ∉ l) :
    ((((setList (empty α n) l v).get k).2).set knew v).hasKey k = true := by
  have hfill := setList_from_empty v l n hnd (le_of_eq hlen)
  rw [hfill]
  have hget : ((⟨l.map (fun x => (x, v)), l, n⟩ : CacheManager α).get k).2 =
      ⟨l.map (fun x => (x, v)), l.filter (fun x => !(x == k)) ++ [k], n⟩ := by
    simp only [get, lookupVal, find_map_some v l k hk, Option.map_some', updateAccessOrder]
  rw [hget]
  have hex : ∃ j ∈ l, j ≠ k := by
    cases l with
    | nil => simp at hk
    | cons a t =>
      cases t with
      | nil =>
        simp only [List.length_cons, List.length_nil] at hlen
        omega
      | cons b t2 =>
        by_cases hak : a = k
        · refine ⟨b, by simp, ?_⟩
          subst hak
          have hnotin := (List.nodup_cons.mp hnd).1
          intro hbk
          exact hnotin (hbk ▸ List.mem_cons_self b t2)
        · exact ⟨a, List.mem_cons_self a _, hak⟩
  obtain ⟨j, hjl, hjk⟩ := hex
  have hjf : j ∈ l.filter (fun x => !(x == k)) :=
    List.mem_filter.mpr ⟨hjl, by simp [hjk]⟩
  cases hf : l.filter (fun x => !(x == k)) with
  | nil =>
    rw [hf] at hjf
    simp at hjf
  | cons h0 t0 =>
    have hh0 : h0 ≠ k := by
      have hmem : h0 ∈ l.filter (fun x => !(x == k)) := hf ▸ List.mem_cons_self h0 t0
      have := List.mem_filter.mp hmem
      simpa using this.2
    have hfind := find_map_none v l knew hknew
    have hsz : n ≤ (l.map (fun x => (x, v))).length := by simp [hlen]
    have hset : (⟨l.map (fun x => (x, v)), h0 :: (t0 ++ [k]), n⟩ :
        CacheManager α).set knew v =
        ⟨(l.filter (fun x => !(x == h0))).map (fun x => (x, v)) ++ [(knew, v)],
         (t0 ++ [k]) ++ [knew], n⟩ := by
      simp only [set, hfind, Option.isSome_none, Bool.false_eq_true, if_false, if_pos hsz,
        evictLeastRecentlyUsed, filter_map_keys]
    rw [List.cons_append, hset]
    have hkfilter : k ∈ l.filter (fun x => !(x == h0)) :=
      List.mem_filter.mpr ⟨hk, by simp [Ne.symm hh0]⟩
    have hfound := find_map_some v (l.filter (fun x => !(x == h0))) k hkfilter
    simp [hasKey, find_append_left _ _ _ hfound]

/-- Setting an already-present key replaces the value and marks the key
most recently used without changing the number of occupied entries. -/
theorem set_existing (m : CacheManager α) (k : String) (v : α) (h : m.hasKey k = true) :
    (m.set k v).cache.length = m.cache.length ∧
    (m.set k v).lookupVal k = some v ∧
    (m.set k v).accessOrder.getLast? = some k ∧
    ∀ j, j ≠ k → (j ∈ (m.set k v).accessOrder ↔ j ∈ m.accessOrder) := by
  have hsome : (m.cache.find? (fun p => p.1 == k)).isSome = true := h
  have hstate : m.set k v =
      ⟨m.cache.map (fun p => if p.1 == k then (k, v) else p),
       updateAccessOrder m.accessOrder k, m.maxSize⟩ := by
    simp only [set, hsome, if_true]
  rw [hstate]
  refine ⟨by simp, ?_, ?_, ?_⟩
  · simp only [lookupVal]
    rw [find_replace m.cache k v (by simp [hsome])]
    rfl
  · simp [updateAccessOrder, List.getLast?_concat]
  · intro j hj
    simp only [updateAccessOrder, List.mem_append, List.mem_filter, List.mem_singleton]
    constructor
    · rintro (⟨hmem, -⟩ | rfl)
      · exact hmem
      · exact absurd rfl hj
    · intro hmem
      exact Or.inl ⟨hmem, by simp [hj]⟩

end CacheManager

/-! ## Claim C5 -/

/-- C5 counterexample: with `maxEntries = 1`, filling the cache with
one key, touching it with `get` and inserting a fresh key still evicts
the touched key — `get` does not protect it at capacity one. -/
theorem c5_capacity_one_counterexample :
    ((((CacheManager.empty Nat 1).set "a" 0).get "a").2.set "b" 0).hasKey "a" = false ∧
    ((((CacheManager.empty Nat 1).set "a" 0).get "a").2.set "b" 0).hasKey "b" = true := by
  constructor
  · decide
  · decide

/-- C5 (amended): for a cache of capacity `maxEntries ≥ 1`, inserting
`maxEntries + 1` distinct keys evicts exactly the least recently used
key and no other; for `maxEntries ≥ 2`, a `get` on a key before the
next `set` marks it most recently used and protects it from the next
eviction (at capacity one the only entry is necessarily evicted); and
`set` on a present key replaces the value and marks it most recently
used without changing the number of occupied entries. -/
theorem c5_lru_correctness :
    (∀ (α : Type) (v : α) (n : Nat), 1 ≤ n → ∀ (k0 : String) (rest : List String),
      (k0 :: rest).Nodup → rest.length = n →
      (CacheManager.setList (CacheManager.empty α n) (k0 :: rest) v).hasKey k0 = false ∧
      ∀ k ∈ rest,
        (CacheManager.setList (CacheManager.empty α n) (k0 :: rest) v).hasKey k = true) ∧
    (∀ (α : Type) (v : α) (n : Nat), 2 ≤ n → ∀ (l : List String), l.Nodup → l.length = n →
      ∀ k ∈ l, ∀ knew, knew ∉ l →
      ((((CacheManager.setList (CacheManager.empty α n) l v).get k).2).set knew v).hasKey k =
        true) ∧
    (∀ (α : Type) (m : CacheManager α) (k : String) (v : α), m.hasKey k = true →
      (m.set k v).cache.length = m.cache.length ∧
      (m.set k v).lookupVal k = some v ∧
      (m.set k v).accessOrder.getLast? = some k ∧
      ∀ j, j ≠ k → (j ∈ (m.set k v).accessOrder ↔ j ∈ m.accessOrder)) :=
  ⟨fun _ v n hn k0 rest hnd hlen =>
      CacheManager.lru_overflow_evicts_head v n hn k0 rest hnd hlen,
   fun _ v n hn l hnd hlen k hk knew hknew =>
      CacheManager.lru_get_protects v n hn l hnd hlen k hk knew hknew,
   fun _ m k v h => CacheManager.set_existing m k v h⟩

/-- C5 witness: the three clauses at capacity two with concrete keys. -/
theorem c5_lru_correctness_witness :
    (["k0", "k1", "k2"] : List String).Nodup ∧
    (CacheManager.setList (CacheManager.empty Nat 2) ["k0", "k1", "k2"] 5).hasKey "k0" =
      false ∧
    (CacheManager.setList (CacheManager.empty Nat 2) ["k0", "k1", "k2"] 5).hasKey "k1" =
      true ∧
    ((((CacheManager.setList (CacheManager.empty Nat 2) ["a", "b"] 5).get "a").2).set "c"
      5).hasKey "a" = true ∧
    ((⟨[("a", 5)], ["a"], 2⟩ : CacheManager Nat).set "a" 7).lookupVal "a" = some 7 :=
  ⟨by decide,
   (c5_lru_correctness.1 Nat 5 2 (by norm_num) "k0" ["k1", "k2"] (by decide) rfl).1,
   (c5_lru_correctness.1 Nat 5 2 (by norm_num) "k0" ["k1", "k2"] (by decide) rfl).2 "k1"
     (by decide),
   c5_lru_correctness.2.1 Nat 5 2 (by norm_num) ["a", "b"] (by decide) rfl "a" (by decide)
     "c" (by decide),
   (c5_lru_correctness.2.2 Nat ⟨[("a", 5)], ["a"], 2⟩ "a" 7 (by decide)).2.1⟩

/-! ## Claim C3 -/

/-- C3 counterexample: with `maxEntries = 0`, `set` is not a no-op and
`get` immediately after `set` returns the stored value, not absent. -/
theorem c3_zero_capacity_counterexample :
    ((((CacheManager.empty Nat 0).set "k" 7).get "k").1 = some 7) ∧
    ((CacheManager.empty Nat 0).set "k" 7).cache.length = 1 := by
  constructor
  · decide
  · decide

/-- C3 (amended): `maxEntries = 0` does not disable the cache: `set`
evicts the least recently used entry when one exists and then inserts,
so the cache always holds exactly one entry after a `set`, and `get(k)`
immediately after `set(k, v)` returns `v`. -/
theorem c3_zero_capacity_not_disabled :
    ∀ (α : Type) (k : String) (v : α),
      ((CacheManager.empty α 0).set k v).cache.length = 1 ∧
      (((CacheManager.empty α 0).set k v).get k).1 = some v ∧
      ∀ (k' : String) (v' : α), k' ≠ k →
        ((((CacheManager.empty α 0).set k v).set k' v').cache.length = 1 ∧
         (((CacheManager.empty α 0).set k v).set k' v').hasKey k = false ∧
         ((((CacheManager.empty α 0).set k v).set k' v').get k').1 = some v') := by
  intro α k v
  have h1 : (CacheManager.empty α 0).set k v = ⟨[(k, v)], [k], 0⟩ := by
    simp [CacheManager.set, CacheManager.empty, CacheManager.evictLeastRecentlyUsed]
  refine ⟨by rw [h1]; rfl, ?_, ?_⟩
  · rw [h1]
    simp [CacheManager.get, CacheManager.lookupVal, List.find?_cons]
  · intro k' v' hkk
    have hne : (k == k') = false := by
      simp only [beq_eq_false_iff_ne, ne_eq]
      exact fun h => hkk h.symm
    have h2 : (⟨[(k, v)], [k], 0⟩ : CacheManager α).set k' v' = ⟨[(k', v')], [k'], 0⟩ := by
      simp [CacheManager.set, hne, CacheManager.evictLeastRecentlyUsed, List.find?_cons]
    rw [h1, h2]
    have hne2 : (k' == k) = false := by
      simp only [beq_eq_false_iff_ne, ne_eq]
      exact hkk
    refine ⟨rfl, ?_, ?_⟩
    · simp [CacheManager.hasKey, List.find?_cons, hne2]
    · simp [CacheManager.get, CacheManager.lookupVal, List.find?_cons]

/-- C3 witness: concrete keys and values at capacity zero. -/
theorem c3_zero_capacity_not_disabled_witness :
    ("b" : String) ≠ "a" ∧
    ((CacheManager.empty Nat 0).set "a" 1).cache.length = 1 ∧
    (((CacheManager.empty Nat 0).set "a" 1).get "a").1 = some 1 ∧
    (((CacheManager.empty Nat 0).set "a" 1).set "b" 2).hasKey "a" = false ∧
    ((((CacheManager.empty Nat 0).set "a" 1).set "b" 2).get "b").1 = some 2 :=
  ⟨by decide,
   (c3_zero_capacity_not_disabled Nat "a" 1).1,
   (c3_zero_capacity_not_disabled Nat "a" 1).2.1,
   ((c3_zero_capacity_not_disabled Nat "a" 1).2.2 "b" 2 (by decide)).2.1,
   ((c3_zero_capacity_not_disabled Nat "a" 1).2.2 "b" 2 (by decide)).2.2⟩

end MCBH
